import Mathlib

/-!
Verification of the BlockBlast bitboard engine (`src/game.py`) and its
exhaustive placement solver (`src/bots/simple.py`).

Modelling conventions:
* The board is a `Nat` used as a bitfield, exactly as Python's unbounded `int`
  (bit `y*width + x` encodes cell `(x, y)`), so `|`, `&`, `<<`, `>>` and
  `board & ~mask` translates to `clearBits` (`b - (b &&& m)`, provably equal
  to `Nat.ldiff b m`, but kernel-computable).
* Positions are `Int × Int`, as in Python, where `is_valid_move` explicitly
  rejects negative coordinates.
* Python `float` fields (`score_increment`, `score_incremental_acceleration`)
  are modelled as exact unnormalised rationals (`PyFloat`); none of the claims
  under verification depends on IEEE-754 rounding.
* `random.sample` / `random.shuffle` outcomes are passed in as explicit
  parameters (a dealt list, a shuffled catalogue order), quantified over in the
  theorems; everything else is deterministic, exactly as in the source.
-/

/-- Exact unnormalised rational, standing in for a Python `float`
(numerator over positive denominator; operations never normalise, so all
arithmetic is kernel-computable). -/
structure PyFloat where
  num : Int
  den : Nat
deriving DecidableEq, Repr

/-- Addition of `PyFloat`s (cross-multiplied, unnormalised). -/
def PyFloat.add (a b : PyFloat) : PyFloat :=
  ⟨a.num * (b.den : Int) + b.num * (a.den : Int), a.den * b.den⟩

/-- Multiplication of `PyFloat`s (unnormalised). -/
def PyFloat.mul (a b : PyFloat) : PyFloat :=
  ⟨a.num * b.num, a.den * b.den⟩

/-- Python `int(x)`: truncation toward zero. -/
def PyFloat.trunc (a : PyFloat) : Int :=
  if 0 ≤ a.num then ((a.num.toNat / a.den : Nat) : Int)
  else -(((-a.num).toNat / a.den : Nat) : Int)

/-- Python `int.bit_count()` (population count), with a structural fuel so it
computes by kernel reduction. The fuel `n` itself always suffices. -/
def bit_count (n : Nat) : Nat :=
  go n n
where
  /-- Fueled popcount loop. -/
  go : Nat → Nat → Nat
  | 0, _ => 0
  | _fuel + 1, 0 => 0
  | fuel + 1, m + 1 => go fuel ((m + 1) / 2) + (m + 1) % 2

/-- The piece catalogue: name to compact interior mask, transcribed from
`_initialize_piece_data` in `src/game.py`. -/
def name_to_pieces : List (String × Nat) :=
  [ ("sq1"    , 0b1),
    ("sq2"    , 0b1111),
    ("sq3"    , 0b111111111),
    ("line2h" , 0b11),
    ("line3h" , 0b111),
    ("line4h" , 0b1111),
    ("line5h" , 0b11111),
    ("line2v" , 0b11),
    ("line3v" , 0b111),
    ("line4v" , 0b1111),
    ("line5v" , 0b11111),
    ("diag2"  , 0b0110),
    ("diag3"  , 0b001010100),
    ("diag2f" , 0b1001),
    ("diag3f" , 0b100010001),
    ("l1"     , 0b101011),
    ("l2"     , 0b111100),
    ("l3"     , 0b110101),
    ("l4"     , 0b001111),
    ("l1f"    , 0b010111),
    ("l2f"    , 0b100111),
    ("l3f"    , 0b111010),
    ("l4f"    , 0b111001),
    ("t1"     , 0b010111),
    ("t2"     , 0b011101),
    ("t3"     , 0b111010),
    ("t4"     , 0b101110),
    ("s1"     , 0b011110),
    ("s2"     , 0b101101),
    ("s1f"    , 0b110011),
    ("s2f"    , 0b011110),
    ("L1"     , 0b100100111),
    ("L2"     , 0b111100100),
    ("L3"     , 0b111001001),
    ("L4"     , 0b001001111),
    ("sL1"    , 0b1011),
    ("sL2"    , 0b1110),
    ("sL3"    , 0b1101),
    ("sL4"    , 0b0111) ]

/-- The piece catalogue: name to bounding box `(width, height)`, transcribed
from `_initialize_piece_data` in `src/game.py`. -/
def name_to_size : List (String × (Nat × Nat)) :=
  [ ("sq1"    , (1, 1)),
    ("sq2"    , (2, 2)),
    ("sq3"    , (3, 3)),
    ("line2h" , (2, 1)),
    ("line3h" , (3, 1)),
    ("line4h" , (4, 1)),
    ("line5h" , (5, 1)),
    ("line2v" , (1, 2)),
    ("line3v" , (1, 3)),
    ("line4v" , (1, 4)),
    ("line5v" , (1, 5)),
    ("diag2"  , (2, 2)),
    ("diag3"  , (3, 3)),
    ("diag2f" , (2, 2)),
    ("diag3f" , (3, 3)),
    ("l1"     , (2, 3)),
    ("l2"     , (3, 2)),
    ("l3"     , (2, 3)),
    ("l4"     , (3, 2)),
    ("l1f"    , (2, 3)),
    ("l2f"    , (3, 2)),
    ("l3f"    , (2, 3)),
    ("l4f"    , (3, 2)),
    ("t1"     , (3, 2)),
    ("t2"     , (2, 3)),
    ("t3"     , (3, 2)),
    ("t4"     , (2, 3)),
    ("s1"     , (3, 2)),
    ("s2"     , (2, 3)),
    ("s1f"    , (3, 2)),
    ("s2f"    , (2, 3)),
    ("L1"     , (3, 3)),
    ("L2"     , (3, 3)),
    ("L3"     , (3, 3)),
    ("L4"     , (3, 3)),
    ("sL1"    , (2, 2)),
    ("sL2"    , (2, 2)),
    ("sL3"    , (2, 2)),
    ("sL4"    , (2, 2)) ]

/-- `self.all_piece_names = list(self.name_to_pieces.keys())`. -/
def all_piece_names : List String := name_to_pieces.map Prod.fst

/-- Compact interior mask of a named piece (`self.name_to_pieces[name]`;
`0` for a name outside the catalogue, where Python would raise `KeyError`). -/
def pieceCompact (name : String) : Nat := (name_to_pieces.lookup name).getD 0

/-- Bounding box of a named piece (`self.name_to_size[name]`; `(0, 0)` for a
name outside the catalogue, where Python would raise `KeyError`). -/
def pieceSize (name : String) : Nat × Nat := (name_to_size.lookup name).getD (0, 0)

/-- Scaled placement mask of a piece at board stride `w`:
`_precompute_masks` in `src/game.py` re-packs each interior row of the compact
mask so it occupies `w` bits. -/
def scaledMask (w : Nat) (name : String) : Nat :=
  (List.range (pieceSize name).2).foldl
    (fun acc r =>
      acc ||| (((pieceCompact name >>> (r * (pieceSize name).1)) &&&
                ((1 <<< (pieceSize name).1) - 1)) <<< (r * w)))
    0

/-- `row_masks[r]`: all bits of row `r` set (`_precompute_masks`). -/
def row_masks (w h : Nat) : List Nat :=
  (List.range h).map (fun r => ((1 <<< w) - 1) <<< (r * w))

/-- `col_masks[c]`: all bits of column `c` set (`_precompute_masks`;
the Python double loop ORs `1 << (r*w + c)` over all rows `r`). -/
def col_masks (w h : Nat) : List Nat :=
  (List.range w).map
    (fun c => (List.range h).foldl (fun acc r => acc ||| (1 <<< (r * w + c))) 0)

/-- `get_piece_mask`: the scaled mask shifted to position `(px, py)`.
Callers bounds-check first, so the shift amount is non-negative; `Int.toNat`
totalises it. -/
def get_piece_mask (w : Nat) (name : String) (pos : Int × Int) : Nat :=
  scaledMask w name <<< (pos.2 * (w : Int) + pos.1).toNat

/-- `is_valid_move`: bounds check on the bounding box, then overlap check
against the board bits. -/
def is_valid_move (w h : Nat) (board : Nat) (name : String) (pos : Int × Int) : Bool :=
  if pos.1 < 0 ∨ pos.2 < 0 ∨ pos.1 + ((pieceSize name).1 : Int) > (w : Int) ∨
     pos.2 + ((pieceSize name).2 : Int) > (h : Int) then
    false
  else
    board &&& get_piece_mask w name pos == 0

/-- `get_possible_moves`: for each held piece, the list of valid positions in
row-major scan order (`r` outer, `c` inner); pieces with no valid position are
omitted. (Python builds a dict keyed by name; with duplicate held names the
dict keeps one entry — emptiness, the only property the engine consumes, is
unaffected.) -/
def get_possible_moves (w h board : Nat) (pieces : List String) :
    List (String × List (Int × Int)) :=
  pieces.filterMap (fun name =>
    let moves := (List.range h).flatMap (fun (r : Nat) =>
      (List.range w).filterMap (fun (c : Nat) =>
        if is_valid_move w h board name ((c : Int), (r : Int)) then
          some ((c : Int), (r : Int))
        else none))
    if moves = [] then none else some (name, moves))

/-- Python's `board &= ~cleared_mask` on non-negative ints: remove the bits
of `m` from `b`. Defined by subtraction (`b &&& m` is part of `b`) so it
computes by kernel reduction; `clearBits_eq_ldiff` shows it equals
`Nat.ldiff`. -/
def clearBits (b m : Nat) : Nat := b - (b &&& m)

/-- The line-clearing scan shared by `make_move` and `try_move`
(`src/game.py` lines 210–221 / 269–280): fold over all row masks, then all
column masks, counting full lines and accumulating the union of full masks.
A line is full iff `board &&& mask == mask`, always tested against the same
input `board` (simultaneous detection). -/
def clearScan (w h board : Nat) : Nat × Nat :=
  (col_masks w h).foldl
    (fun p m => if board &&& m == m then (p.1 + 1, p.2 ||| m) else p)
    ((row_masks w h).foldl
      (fun p m => if board &&& m == m then (p.1 + 1, p.2 ||| m) else p)
      (0, 0))

/-- The detect-and-clear-lines operation: clear the union of full-line masks
when at least one line is full (`if lines_cleared > 0: board &= ~cleared_mask`).
-/
def afterClear (w h board : Nat) : Nat :=
  if 0 < (clearScan w h board).1 then clearBits board (clearScan w h board).2
  else board

/-- The board returned by a valid `try_move` (`try_move(...)['board']`):
place the piece, then detect and clear lines. Used by the dealer and solver,
which call `try_move` only after an `is_valid_move` check. -/
def placeAndClear (w h board : Nat) (name : String) (pos : Int × Int) : Nat :=
  afterClear w h (board ||| get_piece_mask w name pos)

/-- `SCORE_MULTIPLIERS`, with `.get(lines_cleared, 30.0)` default. -/
def score_multiplier (lines_cleared : Nat) : PyFloat :=
  (([(1, (⟨1, 1⟩ : PyFloat)), (2, ⟨2, 1⟩), (3, ⟨6, 1⟩), (4, ⟨12, 1⟩),
     (5, ⟨20, 1⟩), (6, ⟨30, 1⟩)] : List (Nat × PyFloat)).lookup
    lines_cleared).getD ⟨30, 1⟩

/-- Session state of `BlockBlast` (`__init__` fields; board geometry is fixed
at construction). -/
structure GameState where
  width : Nat
  height : Nat
  board : Nat
  score : Int
  combo : Int
  not_combo_counter : Int
  score_increment : PyFloat
  score_incremental_acceleration : PyFloat
  game_over : Bool
  current_pieces : List String
deriving DecidableEq, Repr

/-- Result dict of `make_move`. -/
inductive MoveOutcome where
  | error (message : String)
  | success (board : Nat) (score : Int) (lines_cleared : Nat) (game_over : Bool)
deriving DecidableEq, Repr

/-- Whether a `make_move` outcome is the error dict. -/
def MoveOutcome.isError : MoveOutcome → Bool
  | .error _ => true
  | .success _ _ _ _ => false

/-- Success branch of `make_move` (`src/game.py` lines 207–261): place the
piece, add the flat per-cell score, detect and clear lines, run the scoring
state machine, consume the piece, re-deal when the held set empties (`deal` is
the dealt outcome, standing in for the random deal), and set the terminal
flag when no held piece has a legal position. -/
def make_move_core (s : GameState) (piece_name : String) (pos : Int × Int)
    (deal : List String) : MoveOutcome × GameState :=
  let board1 := s.board ||| get_piece_mask s.width piece_name pos
  let score1 := s.score + (bit_count (pieceCompact piece_name) : Int)
  let lc := clearScan s.width s.height board1
  let lines_cleared := lc.1
  let cleared_mask := lc.2
  let s1 : GameState :=
    if 0 < lines_cleared then
      let board2 := clearBits board1 cleared_mask
      let ncc : Int := 3
      let cs : Int × PyFloat :=
        if ncc + (lines_cleared : Int) ≤ 1 then (-1, ⟨0, 1⟩)
        else (s.combo, s.score_increment)
      let combo1 := cs.1 + 1
      let accel :=
        if combo1 = 0 then (⟨342, 10⟩ : PyFloat)
        else if combo1 = 5 then s.score_incremental_acceleration.mul ⟨4, 1⟩
        else if combo1 = 6 then s.score_incremental_acceleration.mul ⟨375, 1000⟩
        else if combo1 = 10 then s.score_incremental_acceleration.mul ⟨46666, 10000⟩
        else if combo1 = 11 then s.score_incremental_acceleration.mul ⟨2857, 10000⟩
        else s.score_incremental_acceleration
      let si := cs.2.add accel
      let bonus := (si.mul (score_multiplier lines_cleared)).trunc
      { s with board := board2, score := score1 + bonus, combo := combo1,
               not_combo_counter := ncc, score_increment := si,
               score_incremental_acceleration := accel }
    else
      { s with board := board1, score := score1,
               not_combo_counter := s.not_combo_counter - 1 }
  let pieces1 := s1.current_pieces.erase piece_name
  let pieces2 := if pieces1 = [] then deal else pieces1
  let s2 := { s1 with current_pieces := pieces2 }
  let s3 := { s2 with game_over :=
    if get_possible_moves s2.width s2.height s2.board s2.current_pieces = [] then
      true
    else s2.game_over }
  (MoveOutcome.success s3.board s3.score lines_cleared s3.game_over, s3)

/-- `make_move` (`src/game.py` lines 199–261): three rejection guards, then
the success branch. -/
def make_move (s : GameState) (piece_name : String) (pos : Int × Int)
    (deal : List String) : MoveOutcome × GameState :=
  if s.game_over then (MoveOutcome.error "Game is over.", s)
  else if ¬ piece_name ∈ s.current_pieces then
    (MoveOutcome.error "Piece unavailable.", s)
  else if ¬ is_valid_move s.width s.height s.board piece_name pos then
    (MoveOutcome.error "Invalid move.", s)
  else make_move_core s piece_name pos deal

/-- Result dict of `try_move`. -/
inductive TryOutcome where
  | error (message : String)
  | success (board : Nat) (lines_cleared : Nat) (game_over : Bool)
deriving DecidableEq, Repr

/-- `try_move` (`src/game.py` lines 263–294): placement and clearing against a
caller-supplied board value; note that its `game_over` field is computed from
`self.get_possible_moves()`, i.e. from the live `s.board` and
`s.current_pieces`, not from the supplied `board`. -/
def try_move (s : GameState) (board : Nat) (piece_name : String)
    (pos : Int × Int) : TryOutcome :=
  if ¬ is_valid_move s.width s.height board piece_name pos then
    TryOutcome.error "Invalid move."
  else
    let board1 := board ||| get_piece_mask s.width piece_name pos
    let lc := clearScan s.width s.height board1
    let board2 := if 0 < lc.1 then clearBits board1 lc.2 else board1
    let game_over :=
      if get_possible_moves s.width s.height s.board s.current_pieces = [] then
        true
      else false
    TryOutcome.success board2 lc.1 game_over

/-- Parts of a `try_move` outcome that do not involve the `game_over` field. -/
def tryCore : TryOutcome → String ⊕ (Nat × Nat)
  | .error m => Sum.inl m
  | .success b l _ => Sum.inr (b, l)

/-- `_can_place_piece`: first valid position in row-major scan order
(`y` outer, `x` inner), or `none`. -/
def can_place_piece (w h board : Nat) (name : String) : Option (Int × Int) :=
  (List.range h).findSome? (fun (y : Nat) =>
    (List.range w).findSome? (fun (x : Nat) =>
      if is_valid_move w h board name ((x : Int), (y : Int)) then
        some ((x : Int), (y : Int))
      else none))

/-- One pass of the `for name in all_pieces_choices` loop of
`_guaranteed_deal_new_pieces`: greedily place each placeable catalogue entry
on the scratch board, appending its name, stopping as soon as 3 names are
collected. Returns the final scratch board and the collected names. -/
def guaranteed_deal_pass (w h : Nat) : List String → Nat → List String → Nat × List String
  | [], board, acc => (board, acc)
  | name :: rest, board, acc =>
    match can_place_piece w h board name with
    | some pos =>
      let board1 := placeAndClear w h board name pos
      let acc1 := acc ++ [name]
      if acc1.length = 3 then (board1, acc1)
      else guaranteed_deal_pass w h rest board1 acc1
    | none => guaranteed_deal_pass w h rest board acc

/-- The `while True` loop of `_guaranteed_deal_new_pieces`, cut off by an
explicit pass budget (`fuel`): the Python loop has no bound and spins forever
when a pass collects nothing new; `none` models hitting the budget. -/
def guaranteed_deal_loop (w h : Nat) (names : List String) :
    Nat → Nat → List String → Option (List String)
  | 0, _, _ => none
  | fuel + 1, board, acc =>
    let p := guaranteed_deal_pass w h names board acc
    if p.2.length = 3 then some p.2
    else guaranteed_deal_loop w h names fuel p.1 p.2

/-- The recursive generator of `Solver.get_solution` (`src/bots/simple.py`),
with fuel equal to the number of remaining pieces: try each remaining piece
index (held-list order, outer) at each row-major position (inner); on the
first legal branch whose recursion succeeds, return the sequence. `next(...)`
on the Python generator takes exactly the first yield under this order. -/
def solveFuel (w h : Nat) : Nat → Nat → List String → Option (List (String × Int × Int))
  | 0, _, pieces => if pieces = [] then some [] else none
  | fuel + 1, board, pieces =>
    if pieces = [] then some []
    else
      (List.range pieces.length).findSome? (fun (i : Nat) =>
        (List.range h).findSome? (fun (y : Nat) =>
          (List.range w).findSome? (fun (x : Nat) =>
            let p := pieces.getD i ""
            if is_valid_move w h board p ((x : Int), (y : Int)) then
              match solveFuel w h fuel
                  (placeAndClear w h board p ((x : Int), (y : Int)))
                  (pieces.eraseIdx i) with
              | some seq => some ((p, (x : Int), (y : Int)) :: seq)
              | none => none
            else none)))

/-- `Solver.get_solution`: search from the live board over the held pieces;
`none` is Python's `return None` ("no solution"). -/
def get_solution (s : GameState) : Option (List (String × Int × Int)) :=
  solveFuel s.width s.height s.current_pieces.length s.board s.current_pieces

/-- A list of piece names is sequentially placeable from `board`: each piece in
turn has some legal position, with placement and line clears applied before
the next (the guaranteed-deal / "never wholly unplaceable at an intermediate
step" property of the specification). -/
inductive OrderedPlaceable (w h : Nat) : Nat → List String → Prop where
  | nil (board : Nat) : OrderedPlaceable w h board []
  | cons (board : Nat) (name : String) (pos : Int × Int) (rest : List String) :
      is_valid_move w h board name pos = true →
      OrderedPlaceable w h (placeAndClear w h board name pos) rest →
      OrderedPlaceable w h board (name :: rest)

/-- Boolean bounded-search version of `OrderedPlaceable` (positions restricted
to the board's row-major grid; equivalent for catalogue pieces, whose bounding
boxes are non-degenerate). -/
def orderedPlaceableB (w h : Nat) : Nat → List String → Bool
  | _, [] => true
  | board, name :: rest =>
    (List.range h).any (fun (y : Nat) => (List.range w).any (fun (x : Nat) =>
      is_valid_move w h board name ((x : Int), (y : Int)) &&
      orderedPlaceableB w h (placeAndClear w h board name ((x : Int), (y : Int))) rest))

/-- Placing the names of `acc` sequentially from `board`, each at some legal
position with clears applied, can end in exactly the scratch board `board'`
(the dealer's loop invariant). -/
inductive Reaches (w h : Nat) : Nat → List String → Nat → Prop where
  | nil (board : Nat) : Reaches w h board [] board
  | cons (board board' : Nat) (name : String) (pos : Int × Int) (rest : List String) :
      is_valid_move w h board name pos = true →
      Reaches w h (placeAndClear w h board name pos) rest board' →
      Reaches w h board (name :: rest) board'

/-- A run of the Solver is legal: `seq` places every element of `pieces`
(each exactly once, in some order), each move legal on the board as it stands
at that point, with the post-clear board passed on. -/
inductive LegalSeq (w h : Nat) : Nat → List String → List (String × Int × Int) → Prop where
  | nil (board : Nat) : LegalSeq w h board [] []
  | cons (board : Nat) (pieces : List String) (i : Nat) (x y : Int)
      (seq : List (String × Int × Int)) (hi : i < pieces.length) :
      is_valid_move w h board (pieces.get ⟨i, hi⟩) (x, y) = true →
      LegalSeq w h (placeAndClear w h board (pieces.get ⟨i, hi⟩) (x, y))
        (pieces.eraseIdx i) seq →
      LegalSeq w h board pieces ((pieces.get ⟨i, hi⟩, x, y) :: seq)

/-- Modelled from the spec: the scoring transition of claim C1, §4.3 step 2b,
which says the combo-reset check `(not_combo_counter_before_reset +
lines_cleared) <= 1` is evaluated against the counter value as it stood
*before* it is reset to 3 in the same transition. Identical to
`make_move_core` except for the highlighted comparison. -/
def make_move_coreC1 (s : GameState) (piece_name : String) (pos : Int × Int)
    (deal : List String) : MoveOutcome × GameState :=
  let board1 := s.board ||| get_piece_mask s.width piece_name pos
  let score1 := s.score + (bit_count (pieceCompact piece_name) : Int)
  let lc := clearScan s.width s.height board1
  let lines_cleared := lc.1
  let cleared_mask := lc.2
  let s1 : GameState :=
    if 0 < lines_cleared then
      let board2 := clearBits board1 cleared_mask
      let ncc : Int := 3
      let cs : Int × PyFloat :=
        if s.not_combo_counter + (lines_cleared : Int) ≤ 1 then (-1, ⟨0, 1⟩)
        else (s.combo, s.score_increment)
      let combo1 := cs.1 + 1
      let accel :=
        if combo1 = 0 then (⟨342, 10⟩ : PyFloat)
        else if combo1 = 5 then s.score_incremental_acceleration.mul ⟨4, 1⟩
        else if combo1 = 6 then s.score_incremental_acceleration.mul ⟨375, 1000⟩
        else if combo1 = 10 then s.score_incremental_acceleration.mul ⟨46666, 10000⟩
        else if combo1 = 11 then s.score_incremental_acceleration.mul ⟨2857, 10000⟩
        else s.score_incremental_acceleration
      let si := cs.2.add accel
      let bonus := (si.mul (score_multiplier lines_cleared)).trunc
      { s with board := board2, score := score1 + bonus, combo := combo1,
               not_combo_counter := ncc, score_increment := si,
               score_incremental_acceleration := accel }
    else
      { s with board := board1, score := score1,
               not_combo_counter := s.not_combo_counter - 1 }
  let pieces1 := s1.current_pieces.erase piece_name
  let pieces2 := if pieces1 = [] then deal else pieces1
  let s2 := { s1 with current_pieces := pieces2 }
  let s3 := { s2 with game_over :=
    if get_possible_moves s2.width s2.height s2.board s2.current_pieces = [] then
      true
    else s2.game_over }
  (MoveOutcome.success s3.board s3.score lines_cleared s3.game_over, s3)

/-- Modelled from the spec: `make_move` with the claim-C1 reading of the
combo-reset check (see `make_move_coreC1`). -/
def make_moveC1 (s : GameState) (piece_name : String) (pos : Int × Int)
    (deal : List String) : MoveOutcome × GameState :=
  if s.game_over then (MoveOutcome.error "Game is over.", s)
  else if ¬ piece_name ∈ s.current_pieces then
    (MoveOutcome.error "Piece unavailable.", s)
  else if ¬ is_valid_move s.width s.height s.board piece_name pos then
    (MoveOutcome.error "Invalid move.", s)
  else make_move_coreC1 s piece_name pos deal

/-- Fold a list of `(piece, position, deal outcome)` commands through
`make_move` (the "sequence of make_move calls" of claim C10). -/
def applyMoves (s : GameState) (ms : List (String × (Int × Int) × List String)) : GameState :=
  ms.foldl (fun t m => (make_move t m.1 m.2.1 m.2.2).2) s

/-- The board bitfield misses at least one bit inside the `w*h` extent. -/
def NonFull (w h board : Nat) : Prop :=
  ∃ i, i < w * h ∧ board.testBit i = false

/-- A freshly constructed session's scalar state (`__init__`): empty board,
zero score, combo `-1`, miss counter `3`, zero accumulators, not terminal.
The held pieces are a parameter (in Python they come from the initial random
deal). -/
def freshState (w h : Nat) (pieces : List String) : GameState :=
  { width := w, height := h, board := 0, score := 0, combo := -1,
    not_combo_counter := 3, score_increment := ⟨0, 1⟩,
    score_incremental_acceleration := ⟨0, 1⟩, game_over := false,
    current_pieces := pieces }

/-- Session state exhibiting the claim-C1 discrepancy: combo 4, miss counter
already counted down to 0, row 0 missing only its first cell, holding `sq1`.
Reachable in kind: the counter decrements on clear-less moves while combo is
retained. -/
def stateC1 : GameState :=
  { freshState 8 8 ["sq1"] with
      board := 0b11111110,
      combo := 4,
      not_combo_counter := 0,
      score_increment := ⟨342, 10⟩,
      score_incremental_acceleration := ⟨342, 10⟩ }

/-- A fresh 2×2 session holding `sq1` whose board misses only cell (0,0):
placing `sq1` there clears every line. -/
def stateC1W : GameState := { freshState 2 2 ["sq1"] with board := 0b1110 }

/-- A fresh 8×8 session holding three `line4h` pieces (claim C4's scenario
requires placing `line4h` repeatedly). -/
def stateC4 : GameState := freshState 8 8 ["line4h", "line4h", "line4h"]

/-- A fresh 8×8 session holding `sq1` — live board empty. -/
def stateC3A : GameState := freshState 8 8 ["sq1"]

/-- The same session except that its live board is completely full, so its
held piece has no legal position. Differs from `stateC3A` only in live session
state. -/
def stateC3B : GameState := { freshState 8 8 ["sq1"] with board := 2 ^ 64 - 1 }

/-- A shuffled catalogue order (a permutation of `all_piece_names`, as
`random.shuffle` can produce) that makes the guaranteed deal collect
`[t3, diag2, sq1]` on a 3×2 board with only cell (0,0) occupied. -/
def c2CatalogOrder : List String :=
  ["t3", "diag2", "sq1"]
    ++ all_piece_names.filter (fun n => n ≠ "t3" ∧ n ≠ "diag2" ∧ n ≠ "sq1")

/-- A fresh 1×1 session holding `sq1`: its single move clears both the row
and the column. -/
def stateC10W : GameState := freshState 1 1 ["sq1"]
/-- A number all of whose bits at positions `≥ k` are clear is below `2 ^ k`. -/

theorem lt_two_pow_of_testBit_false {n k : Nat}
    (hbit : ∀ i, k ≤ i → n.testBit i = false) : n < 2 ^ k := by
  induction k generalizing n with
  | zero =>
    have hz : n = 0 := Nat.eq_of_testBit_eq (fun i => by
      rw [Nat.zero_testBit]; exact hbit i (Nat.zero_le i))
    simp [hz]
  | succ k ih =>
    have hhalf : n / 2 < 2 ^ k := by
      refine ih (fun i hi => ?_)
      rw [Nat.testBit_div_two]
      exact hbit (i + 1) (by omega)
    have := Nat.div_add_mod n 2
    have hm : n % 2 < 2 := Nat.mod_lt _ (by norm_num)
    have : n < 2 ^ (k + 1) := by
      have h2 : n = 2 * (n / 2) + n % 2 := by omega
      calc n = 2 * (n / 2) + n % 2 := h2
        _ < 2 * (n / 2) + 2 := by omega
        _ = 2 * (n / 2 + 1) := by ring
        _ ≤ 2 * 2 ^ k := by omega
        _ = 2 ^ (k + 1) := by ring
    exact this

/-- Bitwise containment (`m &&& n = m`) in terms of `testBit`. -/
theorem land_eq_left_iff {m n : Nat} :
    m &&& n = m ↔ ∀ i, m.testBit i = true → n.testBit i = true := by
  constructor
  · intro hmn i hm
    have := congrArg (fun a => a.testBit i) hmn
    simp only [Nat.testBit_land, hm, Bool.true_and] at this
    exact this
  · intro hsub
    refine Nat.eq_of_testBit_eq (fun i => ?_)
    rw [Nat.testBit_land]
    cases hm : m.testBit i with
    | false => simp
    | true => simp [hsub i hm]

/-- Bit characterisation of an OR-fold. -/
theorem testBit_orFold (l : List Nat) (init i : Nat) :
    (l.foldl (fun a c => a ||| c) init).testBit i
      = (init.testBit i || l.any (fun a => a.testBit i)) := by
  induction l generalizing init with
  | nil => simp
  | cons x xs ih =>
    simp only [List.foldl_cons, List.any_cons]
    rw [ih, Nat.testBit_lor, Bool.or_assoc]

/-- Each member of a list is bitwise contained in the list's OR-fold. -/
theorem mem_subset_orFold {l : List Nat} {m : Nat} (init : Nat) (hm : m ∈ l) :
    m &&& (l.foldl (fun a c => a ||| c) init) = m := by
  rw [land_eq_left_iff]
  intro i hi
  rw [testBit_orFold]
  have : l.any (fun a => a.testBit i) = true := by
    rw [List.any_eq_true]; exact ⟨m, hm, hi⟩
  simp [this]

/-- An OR-fold of boards each contained in `b`, started from a board contained
in `b`, is contained in `b`. -/
theorem orFold_subset {l : List Nat} {init b : Nat}
    (hinit : init &&& b = init) (hl : ∀ m ∈ l, m &&& b = m) :
    (l.foldl (fun a c => a ||| c) init) &&& b = (l.foldl (fun a c => a ||| c) init) := by
  rw [land_eq_left_iff]
  intro i hi
  rw [testBit_orFold] at hi
  rcases Bool.or_eq_true_iff.mp hi with h | h
  · exact (land_eq_left_iff.mp hinit) i h
  · rcases List.any_eq_true.mp h with ⟨m, hm, hbit⟩
    exact (land_eq_left_iff.mp (hl m hm)) i hbit

/-- Characterisation of the line-scan fold: starting from `(n, m)`, it adds
the number of full masks to `n` and ORs the full masks onto `m`. -/
theorem clearFold_eq (b : Nat) (l : List Nat) (n m : Nat) :
    l.foldl (fun p mk => if b &&& mk == mk then (p.1 + 1, p.2 ||| mk) else p) (n, m)
      = (n + l.countP (fun mk => b &&& mk == mk),
         (l.filter (fun mk => b &&& mk == mk)).foldl (fun a c => a ||| c) m) := by
  induction l generalizing n m with
  | nil => simp
  | cons x xs ih =>
    by_cases hx : b &&& x = x
    · have hx' : (b &&& x == x) = true := by simpa using hx
      simp only [List.foldl_cons, List.countP_cons, List.filter_cons, hx', if_pos]
      rw [ih]
      simp [Nat.add_assoc, Nat.add_comm 1]
    · have hx' : (b &&& x == x) = false := by simpa using hx
      simp only [List.foldl_cons, List.countP_cons, List.filter_cons, hx']
      rw [ih]
      simp

/-- `clearScan` in closed form: the count of full lines among all row and
column masks, and the OR of all full masks. -/
theorem clearScan_eq (w h b : Nat) :
    clearScan w h b
      = ((row_masks w h ++ col_masks w h).countP (fun mk => b &&& mk == mk),
         ((row_masks w h ++ col_masks w h).filter
            (fun mk => b &&& mk == mk)).foldl (fun a c => a ||| c) 0) := by
  unfold clearScan
  rw [clearFold_eq, clearFold_eq, List.countP_append, List.filter_append,
    List.foldl_append]
  simp [Nat.add_comm]

/-- Containment in the other orientation used by the full-line test. -/
theorem land_eq_right_iff {b m : Nat} :
    b &&& m = m ↔ ∀ i, m.testBit i = true → b.testBit i = true := by
  rw [Nat.and_comm]; exact land_eq_left_iff

/-- An OR-fold of numbers below `2 ^ k`, from a start below `2 ^ k`, stays
below `2 ^ k`. -/
theorem orFold_lt_two_pow {l : List Nat} {init k : Nat}
    (hinit : init < 2 ^ k) (hl : ∀ m ∈ l, m < 2 ^ k) :
    l.foldl (fun a c => a ||| c) init < 2 ^ k := by
  induction l generalizing init with
  | nil => simpa using hinit
  | cons x xs ih =>
    simp only [List.foldl_cons]
    exact ih (Nat.or_lt_two_pow hinit (hl x (by simp))) (fun m hm => hl m (by simp [hm]))

/-- Bits of a row mask: exactly positions `r*w ≤ i < r*w + w`. -/
theorem testBit_row_mask (w r i : Nat) :
    (((1 <<< w) - 1) <<< (r * w)).testBit i
      = (decide (r * w ≤ i) && decide (i - r * w < w)) := by
  rw [Nat.one_shiftLeft, Nat.testBit_shiftLeft, Nat.testBit_two_pow_sub_one]

/-- The fold producing one column mask, rewritten as an OR-fold over a list. -/
theorem col_fold_eq (w h c : Nat) :
    (List.range h).foldl (fun acc r => acc ||| (1 <<< (r * w + c))) 0
      = ((List.range h).map (fun r => 1 <<< (r * w + c))).foldl
          (fun a b => a ||| b) 0 := by
  rw [List.foldl_map]

/-- Bits of a column mask: exactly positions `r*w + c` for `r < h`. -/
theorem testBit_col_mask (w h c i : Nat) :
    ((List.range h).foldl (fun acc r => acc ||| (1 <<< (r * w + c))) 0).testBit i
      = (List.range h).any (fun r => decide (i = r * w + c)) := by
  rw [col_fold_eq, testBit_orFold]
  simp only [Nat.zero_testBit, Bool.false_or, List.any_map]
  congr 1
  funext r
  rw [Function.comp_apply, Nat.one_shiftLeft, Nat.testBit_two_pow]
  simp [eq_comm]

/-- Every row or column mask has a set bit inside the board extent
(for a non-degenerate board). -/
theorem mask_has_bit_in_extent {w h m : Nat} (hw : 0 < w) (hh : 0 < h)
    (hm : m ∈ row_masks w h ++ col_masks w h) :
    ∃ i, i < w * h ∧ m.testBit i = true := by
  rcases List.mem_append.mp hm with hr | hc
  · rcases List.mem_map.mp hr with ⟨r, hrh, rfl⟩
    have hrh' : r < h := List.mem_range.mp hrh
    refine ⟨r * w, ?_, ?_⟩
    · calc r * w < (r + 1) * w := by
            have := Nat.succ_le_of_lt (Nat.lt_succ_self r)
            exact Nat.mul_lt_mul_of_lt_of_le (Nat.lt_succ_self r) (le_refl w) hw
      _ ≤ h * w := Nat.mul_le_mul_right w (Nat.succ_le_of_lt hrh')
      _ = w * h := Nat.mul_comm h w
    · rw [testBit_row_mask]
      simp [hw]
  · rcases List.mem_map.mp hc with ⟨c, hcw, rfl⟩
    have hcw' : c < w := List.mem_range.mp hcw
    refine ⟨c, ?_, ?_⟩
    · calc c < w := hcw'
        _ = w * 1 := by ring
        _ ≤ w * h := Nat.mul_le_mul_left w hh
    · rw [testBit_col_mask]
      rw [List.any_eq_true]
      exact ⟨0, List.mem_range.mpr hh, by simp⟩

/-- Every set bit of a row or column mask lies inside the board extent. -/
theorem mask_bits_in_extent {w h m : Nat}
    (hm : m ∈ row_masks w h ++ col_masks w h) :
    ∀ i, m.testBit i = true → i < w * h := by
  intro i hi
  rcases List.mem_append.mp hm with hr | hc
  · rcases List.mem_map.mp hr with ⟨r, hrh, rfl⟩
    have hrh' : r < h := List.mem_range.mp hrh
    rw [testBit_row_mask] at hi
    have h1 : r * w ≤ i := by simpa using (Bool.and_elim_left hi)
    have h2 : i - r * w < w := by simpa using (Bool.and_elim_right hi)
    have : i < r * w + w := by omega
    calc i < r * w + w := this
      _ = (r + 1) * w := by ring
      _ ≤ h * w := Nat.mul_le_mul_right w (Nat.succ_le_of_lt hrh')
      _ = w * h := Nat.mul_comm h w
  · rcases List.mem_map.mp hc with ⟨c, hcw, rfl⟩
    have hcw' : c < w := List.mem_range.mp hcw
    rw [testBit_col_mask] at hi
    rcases List.any_eq_true.mp hi with ⟨r, hrh, hrc⟩
    have hrh' : r < h := List.mem_range.mp hrh
    have : i = r * w + c := by simpa using hrc
    subst this
    calc r * w + c < r * w + w := by omega
      _ = (r + 1) * w := by ring
      _ ≤ h * w := Nat.mul_le_mul_right w (Nat.succ_le_of_lt hrh')
      _ = w * h := Nat.mul_comm h w

/-- Unpacking a successful `is_valid_move`: bounds hold and the placement does
not overlap the board. -/
theorem valid_move_elim {w h board : Nat} {name : String} {pos : Int × Int}
    (hv : is_valid_move w h board name pos = true) :
    0 ≤ pos.1 ∧ 0 ≤ pos.2 ∧
    pos.1 + ((pieceSize name).1 : Int) ≤ (w : Int) ∧
    pos.2 + ((pieceSize name).2 : Int) ≤ (h : Int) ∧
    board &&& get_piece_mask w name pos = 0 := by
  unfold is_valid_move at hv
  split at hv
  · exact absurd hv (by simp)
  · next hcond =>
    push_neg at hcond
    obtain ⟨h1, h2, h3, h4⟩ := hcond
    exact ⟨h1, h2, h3, h4, by simpa using hv⟩

/-- The scaled piece mask is bounded by the extent of its bounding box
(rows strided at `w`): `scaledMask w name < 2 ^ ((ph-1)*w + pw)`. -/
theorem scaledMask_lt (w : Nat) (name : String) :
    scaledMask w name < 2 ^ (((pieceSize name).2 - 1) * w + (pieceSize name).1) := by
  unfold scaledMask
  rw [← List.foldl_map
    (fun r => ((pieceCompact name >>> (r * (pieceSize name).1)) &&&
      ((1 <<< (pieceSize name).1) - 1)) <<< (r * w)) (fun a c => a ||| c)]
  refine orFold_lt_two_pow (Nat.pos_pow_of_pos _ (by norm_num)) ?_
  intro m hm
  rcases List.mem_map.mp hm with ⟨r, hr, rfl⟩
  have hr' : r < (pieceSize name).2 := List.mem_range.mp hr
  have hterm : (pieceCompact name >>> (r * (pieceSize name).1)) &&&
      ((1 <<< (pieceSize name).1) - 1) < 2 ^ (pieceSize name).1 := by
    have hle : (pieceCompact name >>> (r * (pieceSize name).1)) &&&
        ((1 <<< (pieceSize name).1) - 1) ≤ (1 <<< (pieceSize name).1) - 1 :=
      Nat.and_le_right
    have h2 : (1 : Nat) <<< (pieceSize name).1 = 2 ^ (pieceSize name).1 :=
      Nat.one_shiftLeft _
    have h3 : 0 < 2 ^ (pieceSize name).1 := Nat.two_pow_pos _
    omega
  have hshift : ((pieceCompact name >>> (r * (pieceSize name).1)) &&&
      ((1 <<< (pieceSize name).1) - 1)) <<< (r * w)
      < 2 ^ (r * w + (pieceSize name).1) := by
    rw [Nat.shiftLeft_eq_mul_pow, Nat.pow_add, Nat.mul_comm (2 ^ (r * w))]
    exact Nat.mul_lt_mul_of_lt_of_le hterm (le_refl _) (Nat.two_pow_pos _)
  refine lt_of_lt_of_le hshift (Nat.pow_le_pow_right (by norm_num) ?_)
  have hrle : r ≤ (pieceSize name).2 - 1 := by omega
  exact Nat.add_le_add_right (Nat.mul_le_mul_right w hrle) _

/-- The placement mask of a validly placed piece lies entirely inside the
board extent. -/
theorem get_piece_mask_lt {w h board : Nat} {name : String} {pos : Int × Int}
    (hv : is_valid_move w h board name pos = true) :
    get_piece_mask w name pos < 2 ^ (w * h) := by
  obtain ⟨hx0, hy0, hxw, hyh, _⟩ := valid_move_elim hv
  have hpx : pos.1.toNat + (pieceSize name).1 ≤ w := by omega
  have hpy : pos.2.toNat + (pieceSize name).2 ≤ h := by omega
  have hcast : ((pos.2.toNat * w + pos.1.toNat : Nat) : Int) = pos.2 * (w : Int) + pos.1 := by
    push_cast
    rw [Int.toNat_of_nonneg hy0, Int.toNat_of_nonneg hx0]
  have hshiftNat : (pos.2 * (w : Int) + pos.1).toNat = pos.2.toNat * w + pos.1.toNat := by
    rw [← hcast, Int.toNat_natCast]
  unfold get_piece_mask
  rw [hshiftNat, Nat.shiftLeft_eq_mul_pow]
  rcases Nat.eq_zero_or_pos (pieceSize name).2 with hph0 | hph1
  · have hs : scaledMask w name = 0 := by
      unfold scaledMask
      rw [hph0]
      simp
    rw [hs, Nat.zero_mul]
    exact Nat.pos_pow_of_pos _ (by norm_num)
  · have hbound := scaledMask_lt w name
    have hmul : scaledMask w name * 2 ^ (pos.2.toNat * w + pos.1.toNat)
        < 2 ^ (((pieceSize name).2 - 1) * w + (pieceSize name).1)
            * 2 ^ (pos.2.toNat * w + pos.1.toNat) :=
      Nat.mul_lt_mul_of_lt_of_le hbound (le_refl _) (Nat.two_pow_pos _)
    refine lt_of_lt_of_le hmul ?_
    rw [← Nat.pow_add]
    refine Nat.pow_le_pow_right (by norm_num) ?_
    have hkey : ((pieceSize name).2 - 1) * w + (pieceSize name).1
          + (pos.2.toNat * w + pos.1.toNat)
        = ((pieceSize name).2 - 1 + pos.2.toNat) * w
          + ((pieceSize name).1 + pos.1.toNat) := by ring_nf
    rw [hkey]
    have h1 : (pieceSize name).2 - 1 + pos.2.toNat ≤ h - 1 := by omega
    have h2 : (pieceSize name).1 + pos.1.toNat ≤ w := by omega
    calc ((pieceSize name).2 - 1 + pos.2.toNat) * w + ((pieceSize name).1 + pos.1.toNat)
        ≤ (h - 1) * w + w := Nat.add_le_add (Nat.mul_le_mul_right w h1) h2
      _ ≤ w * h := by
          have hh1 : 1 ≤ h := by omega
          cases h with
          | zero => omega
          | succ k =>
            have heq : (k + 1 - 1) * w + w = w * (k + 1) := by
              simp only [Nat.add_sub_cancel]
              ring
            exact le_of_eq heq

/-- `Nat.ldiff b m` is contained in `b`. -/
theorem ldiff_land_self (b m : Nat) : (Nat.ldiff b m) &&& b = Nat.ldiff b m := by
  rw [land_eq_left_iff]
  intro i hi
  rw [Nat.testBit_ldiff] at hi
  exact (Bool.and_elim_left hi)

/-- `Nat.ldiff` with an empty left operand. -/
theorem ldiff_zero_left (m : Nat) : Nat.ldiff 0 m = 0 := by
  refine Nat.eq_of_testBit_eq (fun i => ?_)
  rw [Nat.testBit_ldiff, Nat.zero_testBit]
  simp

/-- The bits of `b` split into those outside `m` and those inside `m`. -/
theorem ldiff_add_and (b m : Nat) : Nat.ldiff b m + (b &&& m) = b := by
  induction b using Nat.binaryRec generalizing m with
  | z => rw [ldiff_zero_left, Nat.zero_and]
  | f a n ih =>
    induction m using Nat.bitCasesOn with
    | h c k =>
    rw [Nat.ldiff_bit, Nat.land_bit, Nat.bit_val, Nat.bit_val, Nat.bit_val]
    have hk := ih k
    cases a <;> cases c <;>
      simp only [Bool.and_self, Bool.and_false, Bool.and_true, Bool.false_and,
        Bool.true_and, Bool.not_true, Bool.not_false, Bool.toNat_true,
        Bool.toNat_false] <;>
      omega

/-- `clearBits` agrees with `Nat.ldiff`. -/
theorem clearBits_eq_ldiff (b m : Nat) : clearBits b m = Nat.ldiff b m := by
  have h := ldiff_add_and b m
  have hle : b &&& m ≤ b := Nat.and_le_left
  unfold clearBits
  omega

/-- Bit characterisation of `clearBits`. -/
theorem testBit_clearBits (b m i : Nat) :
    (clearBits b m).testBit i = (b.testBit i && !(m.testBit i)) := by
  rw [clearBits_eq_ldiff, Nat.testBit_ldiff]

/-- `clearBits b m` is contained in `b`. -/
theorem clearBits_land_self (b m : Nat) : (clearBits b m) &&& b = clearBits b m := by
  rw [clearBits_eq_ldiff]
  exact ldiff_land_self b m

/-- The board after a clearing pass is contained in the board before it. -/
theorem afterClear_land_self (w h b : Nat) :
    (afterClear w h b) &&& b = afterClear w h b := by
  unfold afterClear
  split
  · exact clearBits_land_self b _
  · rw [land_eq_left_iff]; intro i hi; exact hi

/-- A mask that is full on `b` is contained in the cleared-mask union. -/
theorem full_subset_cleared {w h b m : Nat}
    (hm : m ∈ row_masks w h ++ col_masks w h) (hfull : b &&& m = m) :
    m &&& (clearScan w h b).2 = m := by
  rw [clearScan_eq]
  refine mem_subset_orFold 0 ?_
  rw [List.mem_filter]
  exact ⟨hm, by simpa using hfull⟩

/-- The number of cleared lines is positive iff some row or column mask is
full on the board. -/
theorem clearScan_pos_iff {w h b : Nat} :
    0 < (clearScan w h b).1
      ↔ ∃ m ∈ row_masks w h ++ col_masks w h, b &&& m = m := by
  rw [clearScan_eq]
  simp only [List.countP_pos_iff, beq_iff_eq]

/-- No row or column mask is full after one clearing pass (masks are nonzero
for a non-degenerate board). -/
theorem afterClear_not_full {w h b : Nat} (hw : 0 < w) (hh : 0 < h) :
    ∀ m ∈ row_masks w h ++ col_masks w h, ¬((afterClear w h b) &&& m = m) := by
  intro m hm hfull'
  by_cases hfull : b &&& m = m
  · have hpos : 0 < (clearScan w h b).1 := clearScan_pos_iff.mpr ⟨m, hm, hfull⟩
    have hafter : afterClear w h b = clearBits b (clearScan w h b).2 := by
      unfold afterClear
      rw [if_pos hpos]
    obtain ⟨i, _, hbit⟩ := mask_has_bit_in_extent hw hh hm
    have hcleared : (clearScan w h b).2.testBit i = true :=
      (land_eq_left_iff.mp (full_subset_cleared hm hfull)) i hbit
    have hres : (afterClear w h b).testBit i = true :=
      (land_eq_right_iff.mp hfull') i hbit
    rw [hafter, testBit_clearBits, hcleared] at hres
    simp at hres
  · apply hfull
    have hsub : ∀ i, m.testBit i = true → b.testBit i = true := by
      intro i hi
      have h1 : (afterClear w h b).testBit i = true :=
        (land_eq_right_iff.mp hfull') i hi
      have h2 := (land_eq_left_iff.mp (afterClear_land_self w h b)) i h1
      exact h2
    exact land_eq_right_iff.mpr hsub

/-- After one clearing pass, every bit inside the extent cannot all be set:
some extent bit is clear (non-degenerate board). -/
theorem afterClear_nonFull {w h : Nat} (hw : 0 < w) (hh : 0 < h) (b : Nat) :
    NonFull w h (afterClear w h b) := by
  by_cases hfull : ∃ m ∈ row_masks w h ++ col_masks w h, b &&& m = m
  · rcases hfull with ⟨m, hm, hfullm⟩
    have hpos : 0 < (clearScan w h b).1 := clearScan_pos_iff.mpr ⟨m, hm, hfullm⟩
    have hafter : afterClear w h b = clearBits b (clearScan w h b).2 := by
      unfold afterClear
      rw [if_pos hpos]
    obtain ⟨i, hiwh, hbit⟩ := mask_has_bit_in_extent hw hh hm
    refine ⟨i, hiwh, ?_⟩
    have hcleared : (clearScan w h b).2.testBit i = true :=
      (land_eq_left_iff.mp (full_subset_cleared hm hfullm)) i hbit
    rw [hafter, testBit_clearBits, hcleared]
    simp
  · push_neg at hfull
    have hrow0 : ((1 <<< w) - 1) <<< (0 * w) ∈ row_masks w h ++ col_masks w h := by
      rw [List.mem_append]
      left
      exact List.mem_map.mpr ⟨0, List.mem_range.mpr hh, rfl⟩
    have hnot : ¬(b &&& (((1 <<< w) - 1) <<< (0 * w)) = ((1 <<< w) - 1) <<< (0 * w)) :=
      hfull _ hrow0
    have hex : ∃ i, (((1 <<< w) - 1) <<< (0 * w)).testBit i = true ∧ b.testBit i = false := by
      by_contra hno
      push_neg at hno
      apply hnot
      refine land_eq_right_iff.mpr (fun i hi => ?_)
      have hb := hno i hi
      simpa using hb
    rcases hex with ⟨i, himask, hibit⟩
    have hiwh : i < w * h := mask_bits_in_extent hrow0 i himask
    have hsub : (afterClear w h b).testBit i = false := by
      by_contra hT
      have hT' : (afterClear w h b).testBit i = true := by simpa using hT
      have hbt := (land_eq_left_iff.mp (afterClear_land_self w h b)) i hT'
      simp [hibit] at hbt
    exact ⟨i, hiwh, hsub⟩

/-- The board returned by a (valid) `try_move` always leaves some extent cell
empty, for a non-degenerate board. -/
theorem placeAndClear_nonFull {w h : Nat} (hw : 0 < w) (hh : 0 < h)
    (b : Nat) (name : String) (pos : Int × Int) :
    NonFull w h (placeAndClear w h b name pos) :=
  afterClear_nonFull hw hh _

/-- Every catalogue piece has a non-degenerate bounding box. -/
theorem catalog_sizes_pos :
    ∀ n ∈ all_piece_names, 1 ≤ (pieceSize n).1 ∧ 1 ≤ (pieceSize n).2 := by decide

/-- The 1×1 square is in the catalogue. -/
theorem sq1_mem_catalog : "sq1" ∈ all_piece_names := by decide

/-- The scaled mask of the 1×1 square is a single bit at any stride. -/
theorem scaledMask_sq1 (w : Nat) : scaledMask w "sq1" = 1 := by
  unfold scaledMask
  rw [show pieceSize "sq1" = (1, 1) from rfl, show pieceCompact "sq1" = 1 from rfl]
  norm_num [List.range_succ, Nat.shiftLeft_eq]

/-- The 1×1 square is legal at any in-range cell whose bit is clear. -/
theorem sq1_valid_at {w h board x y : Nat} (hx : x < w) (hy : y < h)
    (hbit : board.testBit (y * w + x) = false) :
    is_valid_move w h board "sq1" ((x : Int), (y : Int)) = true := by
  have hmask : get_piece_mask w "sq1" (((x : Nat) : Int), ((y : Nat) : Int))
      = 2 ^ (y * w + x) := by
    unfold get_piece_mask
    rw [scaledMask_sq1]
    have hcast : (((y : Nat) : Int) * (w : Int) + ((x : Nat) : Int)).toNat
        = y * w + x := by
      have hc : (((y * w + x : Nat)) : Int)
          = ((y : Nat) : Int) * (w : Int) + ((x : Nat) : Int) := by push_cast; ring
      rw [← hc, Int.toNat_natCast]
    rw [hcast, Nat.one_shiftLeft]
  unfold is_valid_move
  rw [if_neg]
  · rw [hmask]
    have hand : board &&& 2 ^ (y * w + x) = 0 := by
      rw [Nat.and_two_pow, hbit]
      simp
    simp [hand]
  · rw [show pieceSize "sq1" = (1, 1) from rfl]
    push_neg
    have hxI : ((x : Nat) : Int) < (w : Int) := by exact_mod_cast hx
    have hyI : ((y : Nat) : Int) < (h : Int) := by exact_mod_cast hy
    refine ⟨by positivity, by positivity, ?_, ?_⟩
    · simp only [Prod.fst]
      omega
    · simp only [Prod.snd]
      omega

/-- On a board with an empty extent cell, the 1×1 square has a legal position
(the cell’s coordinates). -/
theorem sq1_valid_of_nonFull {w h board : Nat} (hw : 0 < w) (_hh : 0 < h)
    (hnf : NonFull w h board) :
    ∃ x y : Nat, x < w ∧ y < h ∧
      is_valid_move w h board "sq1" ((x : Int), (y : Int)) = true := by
  obtain ⟨i, hiwh, hbit⟩ := hnf
  have hx : i % w < w := Nat.mod_lt i hw
  have hy : i / w < h := by
    rw [Nat.div_lt_iff_lt_mul hw]
    rw [Nat.mul_comm] at hiwh
    exact hiwh
  refine ⟨i % w, i / w, hx, hy, ?_⟩
  refine sq1_valid_at hx hy ?_
  have hrw : i / w * w + i % w = i := by
    rw [Nat.mul_comm]
    exact Nat.div_add_mod i w
  rw [hrw]
  exact hbit

/-- A position returned by `_can_place_piece` is legal. -/
theorem can_place_piece_valid {w h board : Nat} {name : String} {pos : Int × Int}
    (hc : can_place_piece w h board name = some pos) :
    is_valid_move w h board name pos = true := by
  unfold can_place_piece at hc
  rcases List.exists_of_findSome?_eq_some hc with ⟨y, _, hy⟩
  rcases List.exists_of_findSome?_eq_some hy with ⟨x, _, hx⟩
  by_cases hv : is_valid_move w h board name ((x : Int), (y : Int)) = true
  · rw [if_pos hv] at hx
    cases hx
    exact hv
  · rw [if_neg hv] at hx
    cases hx

/-- If some in-range position is legal, `_can_place_piece` finds one. -/
theorem can_place_piece_isSome {w h board : Nat} {name : String} {x y : Nat}
    (hx : x < w) (hy : y < h)
    (hv : is_valid_move w h board name ((x : Int), (y : Int)) = true) :
    ∃ pos, can_place_piece w h board name = some pos := by
  cases hc : can_place_piece w h board name with
  | some pos => exact ⟨pos, rfl⟩
  | none =>
    exfalso
    unfold can_place_piece at hc
    rw [List.findSome?_eq_none_iff] at hc
    have hyy := hc y (List.mem_range.mpr hy)
    rw [List.findSome?_eq_none_iff] at hyy
    have hxx := hyy x (List.mem_range.mpr hx)
    rw [if_pos hv] at hxx
    cases hxx

/-- A number contained in a number below `2 ^ k` is below `2 ^ k`. -/
theorem land_lt_two_pow {a b k : Nat} (hsub : a &&& b = a) (hb : b < 2 ^ k) :
    a < 2 ^ k := by
  refine lt_two_pow_of_testBit_false (fun i hi => ?_)
  have hbbit : b.testBit i = false :=
    Nat.testBit_lt_two_pow
      (lt_of_lt_of_le hb (Nat.pow_le_pow_right (by norm_num) hi))
  by_contra hT
  have hT' : a.testBit i = true := by simpa using hT
  have := (land_eq_left_iff.mp hsub) i hT'
  simp [hbbit] at this

/-- Clearing `0` bits is the identity. -/
theorem ldiff_zero_right (b : Nat) : Nat.ldiff b 0 = b := by
  refine Nat.eq_of_testBit_eq (fun i => ?_)
  rw [Nat.testBit_ldiff, Nat.zero_testBit]
  simp

/-- The union of full-line masks is contained in the board. -/
theorem cleared_subset_board (w h b : Nat) :
    (clearScan w h b).2 &&& b = (clearScan w h b).2 := by
  rw [clearScan_eq]
  refine orFold_subset (by simp) ?_
  intro m hm
  rcases List.mem_filter.mp hm with ⟨_, hfull⟩
  have hfull' : b &&& m = m := by simpa using hfull
  rw [Nat.and_comm] at hfull'
  exact hfull'

/-- Claim C5: line detection declares a line full iff `board &&& mask = mask`;
the reported count is the number of full rows plus the number of full columns,
counted independently over the two mask lists; a mask is contained in the
cleared union exactly when it is full on the input board (so clearing is one
simultaneous pass against that board); and the post-scan board is the input
with the whole union of full masks removed in one step. -/
theorem c5_line_detection (w h b : Nat) :
    (clearScan w h b).1
        = (row_masks w h).countP (fun mk => b &&& mk == mk)
          + (col_masks w h).countP (fun mk => b &&& mk == mk)
    ∧ (∀ m ∈ row_masks w h ++ col_masks w h,
        (b &&& m = m ↔ m &&& (clearScan w h b).2 = m))
    ∧ afterClear w h b = Nat.ldiff b (clearScan w h b).2 := by
  refine ⟨?_, ?_, ?_⟩
  · rw [clearScan_eq]
    simp [List.countP_append]
  · intro m hm
    constructor
    · intro hfull
      exact full_subset_cleared hm hfull
    · intro hsub
      have hcb := cleared_subset_board w h b
      rw [Nat.and_comm]
      rw [land_eq_left_iff]
      intro i hi
      have h1 : (clearScan w h b).2.testBit i = true :=
        (land_eq_left_iff.mp hsub) i hi
      exact (land_eq_left_iff.mp hcb) i h1
  · unfold afterClear
    split
    · exact clearBits_eq_ldiff _ _
    · next hnotpos =>
      have hzero : (clearScan w h b).1 = 0 := by omega
      have hzero' : (row_masks w h ++ col_masks w h).countP
          (fun mk => b &&& mk == mk) = 0 := by
        rw [clearScan_eq] at hzero
        exact hzero
      have hfe : (row_masks w h ++ col_masks w h).filter
          (fun mk => b &&& mk == mk) = [] := by
        rw [List.filter_eq_nil_iff]
        exact List.countP_eq_zero.mp hzero'
      have hcl : (clearScan w h b).2 = 0 := by
        rw [clearScan_eq]
        simp only [hfe, List.foldl_nil]
      rw [hcl, ldiff_zero_right]

/-- Claim C5 witness: the characterisation instantiated on a concrete 2×2
board with one full row. -/
theorem c5_line_detection_witness :
    (clearScan 2 2 3).1
        = (row_masks 2 2).countP (fun mk => 3 &&& mk == mk)
          + (col_masks 2 2).countP (fun mk => 3 &&& mk == mk)
    ∧ (3 &&& 3 = 3 ↔ 3 &&& (clearScan 2 2 3).2 = 3)
    ∧ afterClear 2 2 3 = Nat.ldiff 3 (clearScan 2 2 3).2 := by
  refine ⟨(c5_line_detection 2 2 3).1, ?_, (c5_line_detection 2 2 3).2.2⟩
  exact (c5_line_detection 2 2 3).2.1 3 (by decide)

/-- Claim C8: detect-and-clear is idempotent — after one clearing pass no
row or column mask is full, so a second pass reports zero lines and leaves
the board unchanged (non-degenerate board). -/
theorem c8_clear_idempotent (w h b : Nat) (hw : 0 < w) (hh : 0 < h) :
    (clearScan w h (afterClear w h b)).1 = 0
    ∧ afterClear w h (afterClear w h b) = afterClear w h b := by
  have hnone : ∀ m ∈ row_masks w h ++ col_masks w h,
      ¬((afterClear w h b) &&& m = m) := afterClear_not_full hw hh
  have hzero : (clearScan w h (afterClear w h b)).1 = 0 := by
    rw [clearScan_eq]
    simp only []
    rw [List.countP_eq_zero]
    intro m hm
    simpa using hnone m hm
  refine ⟨hzero, ?_⟩
  conv_lhs => rw [afterClear]
  rw [hzero]
  simp

/-- Claim C8 witness: instantiated on the 2×2 board `0b0011` (full top row). -/
theorem c8_clear_idempotent_witness :
    (clearScan 2 2 (afterClear 2 2 3)).1 = 0
    ∧ afterClear 2 2 (afterClear 2 2 3) = afterClear 2 2 3 :=
  c8_clear_idempotent 2 2 3 (by decide) (by decide)

/-- The success branch of `make_move` never produces the error dict. -/
theorem make_move_core_not_error (s : GameState) (n : String) (p : Int × Int)
    (d : List String) : (make_move_core s n p d).1.isError = false := by
  simp [make_move_core, MoveOutcome.isError]

/-- The board stored by the success branch of `make_move` is the placed board
after one clearing pass. -/
theorem make_move_core_board (s : GameState) (n : String) (p : Int × Int)
    (d : List String) :
    ((make_move_core s n p d).2).board
      = afterClear s.width s.height (s.board ||| get_piece_mask s.width n p) := by
  by_cases hpos :
      0 < (clearScan s.width s.height (s.board ||| get_piece_mask s.width n p)).1
  · simp [make_move_core, afterClear, hpos]
  · simp [make_move_core, afterClear, hpos]

/-- Claim C7: the board bitfield never sets a bit outside `[0, width*height)`:
a fresh session's empty board satisfies this, and `make_move` preserves it —
a validly placed piece's mask lies inside the extent and clearing only removes
bits (rejected moves leave the state unchanged). -/
theorem c7_board_extent_invariant :
    (∀ w h pieces, (freshState w h pieces).board < 2 ^ (w * h))
    ∧ ∀ (s : GameState) (n : String) (p : Int × Int) (d : List String),
        s.board < 2 ^ (s.width * s.height) →
        ((make_move s n p d).2).board < 2 ^ (s.width * s.height) := by
  constructor
  · intro w h pieces
    show (0 : Nat) < 2 ^ (w * h)
    exact Nat.two_pow_pos _
  · intro s n p d hb
    by_cases hgo : s.game_over
    · simpa [make_move, hgo] using hb
    · by_cases hmem : n ∈ s.current_pieces
      · by_cases hval : is_valid_move s.width s.height s.board n p = true
        · have hres : (make_move s n p d).2 = (make_move_core s n p d).2 := by
            simp [make_move, hgo, hmem, hval]
          rw [hres, make_move_core_board]
          have hmask := get_piece_mask_lt hval
          have hb1 : s.board ||| get_piece_mask s.width n p
              < 2 ^ (s.width * s.height) := Nat.or_lt_two_pow hb hmask
          unfold afterClear
          split
          · exact land_lt_two_pow (clearBits_land_self _ _) hb1
          · exact hb1
        · simpa [make_move, hgo, hmem, hval] using hb
      · simpa [make_move, hgo, hmem] using hb

/-- Claim C7 witness: the invariant applied to a concrete single-piece move
on a fresh 8×8 session. -/
theorem c7_board_extent_invariant_witness :
    ((make_move (freshState 8 8 ["sq1"]) "sq1" (0, 0) []).2).board < 2 ^ (8 * 8) :=
  c7_board_extent_invariant.2 (freshState 8 8 ["sq1"]) "sq1" (0, 0) [] (by decide)

/-- Claim C6: `make_move` returns the error dict exactly when the session is
already terminal, or the named piece is not currently held, or the placement
is invalid on the live board; and every rejected `make_move` leaves the whole
session state unchanged. (The hypothesis restricts held names to the
catalogue: for a held name outside it, Python's dictionary lookup would raise
`KeyError` instead of returning the error dict.) -/
theorem c6_make_move_rejection :
    ∀ (s : GameState) (n : String) (p : Int × Int) (d : List String),
      (∀ q ∈ s.current_pieces, (name_to_pieces.lookup q).isSome = true) →
      (((make_move s n p d).1.isError = true)
          ↔ (s.game_over = true ∨ n ∉ s.current_pieces
             ∨ is_valid_move s.width s.height s.board n p = false))
      ∧ ((make_move s n p d).1.isError = true → (make_move s n p d).2 = s) := by
  intro s n p d _hcat
  by_cases hgo : s.game_over
  · constructor
    · simp [make_move, hgo, MoveOutcome.isError]
    · intro _
      simp [make_move, hgo]
  · by_cases hmem : n ∈ s.current_pieces
    · by_cases hval : is_valid_move s.width s.height s.board n p = true
      · constructor
        · simp [make_move, hgo, hmem, hval, make_move_core_not_error]
        · intro herr
          exfalso
          have : (make_move s n p d).1.isError = false := by
            simp [make_move, hgo, hmem, hval, make_move_core_not_error]
          rw [herr] at this
          cases this
      · constructor
        · simp [make_move, hgo, hmem, hval, MoveOutcome.isError]
        · intro _
          simp [make_move, hgo, hmem, hval]
    · constructor
      · simp [make_move, hgo, hmem, MoveOutcome.isError]
      · intro _
        simp [make_move, hgo, hmem]

/-- Claim C6 witness: a fresh 8×8 session holding only `sq1` rejects a move
with the unheld piece `sq2`, leaving the state unchanged. -/
theorem c6_make_move_rejection_witness :
    (((make_move (freshState 8 8 ["sq1"]) "sq2" (0, 0) []).1.isError = true)
        ↔ ((freshState 8 8 ["sq1"]).game_over = true ∨ "sq2" ∉ (freshState 8 8 ["sq1"]).current_pieces
           ∨ is_valid_move 8 8 (freshState 8 8 ["sq1"]).board "sq2" (0, 0) = false))
    ∧ ((make_move (freshState 8 8 ["sq1"]) "sq2" (0, 0) []).1.isError = true →
        (make_move (freshState 8 8 ["sq1"]) "sq2" (0, 0) []).2 = freshState 8 8 ["sq1"]) :=
  c6_make_move_rejection (freshState 8 8 ["sq1"]) "sq2" (0, 0) [] (by decide)

/-- In the success branch, the reset guard `3 + lines_cleared <= 1` is tested
after the counter reset, so on a clearing move the combo always increments. -/
theorem make_move_core_combo (s : GameState) (n : String) (p : Int × Int)
    (d : List String) :
    ((make_move_core s n p d).2).combo
      = (if 0 < (clearScan s.width s.height
            (s.board ||| get_piece_mask s.width n p)).1
         then s.combo + 1 else s.combo) := by
  by_cases hpos :
      0 < (clearScan s.width s.height (s.board ||| get_piece_mask s.width n p)).1
  · have hncc : ¬((3 : Int) + ((clearScan s.width s.height
        (s.board ||| get_piece_mask s.width n p)).1 : Int) ≤ 1) := by
      have h1 : (1 : Nat) ≤ (clearScan s.width s.height
          (s.board ||| get_piece_mask s.width n p)).1 := hpos
      omega
    simp [make_move_core, hpos, hncc]
  · simp [make_move_core, hpos]

/-- In the success branch of a clearing move, the miss counter is reset to 3,
the combo increments, and the accumulator gains exactly the (updated)
acceleration — the spec's "reset combo and accumulator" branch is dead code. -/
theorem make_move_core_clear_fields (s : GameState) (n : String) (p : Int × Int)
    (d : List String)
    (hpos : 0 < (clearScan s.width s.height
        (s.board ||| get_piece_mask s.width n p)).1) :
    ((make_move_core s n p d).2).not_combo_counter = 3
    ∧ ((make_move_core s n p d).2).combo = s.combo + 1
    ∧ ((make_move_core s n p d).2).score_increment
        = s.score_increment.add
            ((make_move_core s n p d).2).score_incremental_acceleration := by
  have hncc : ¬((3 : Int) + ((clearScan s.width s.height
      (s.board ||| get_piece_mask s.width n p)).1 : Int) ≤ 1) := by
    have h1 : (1 : Nat) ≤ (clearScan s.width s.height
        (s.board ||| get_piece_mask s.width n p)).1 := hpos
    omega
  refine ⟨?_, ?_, ?_⟩ <;> simp [make_move_core, hpos, hncc]

/-- The outcome of the success branch reports the scan's line count. -/
theorem make_move_core_outcome (s : GameState) (n : String) (p : Int × Int)
    (d : List String) :
    ∃ b sc go, (make_move_core s n p d).1
      = MoveOutcome.success b sc
          (clearScan s.width s.height (s.board ||| get_piece_mask s.width n p)).1
          go := by
  simp only [make_move_core]
  exact ⟨_, _, _, rfl⟩

/-- One `make_move` call never decreases the combo (rejected moves leave the
state unchanged; clearing moves increment it; other moves keep it). -/
theorem make_move_combo_le (s : GameState) (n : String) (p : Int × Int)
    (d : List String) : s.combo ≤ ((make_move s n p d).2).combo := by
  by_cases hgo : s.game_over
  · simp [make_move, hgo]
  · by_cases hmem : n ∈ s.current_pieces
    · by_cases hval : is_valid_move s.width s.height s.board n p = true
      · have hres : (make_move s n p d).2 = (make_move_core s n p d).2 := by
          simp [make_move, hgo, hmem, hval]
        rw [hres, make_move_core_combo]
        split
        · omega
        · exact le_refl _
      · simp [make_move, hgo, hmem, hval]
    · simp [make_move, hgo, hmem]

/-- Claim C10: across every sequence of `make_move` calls the combo never
decreases (hence never returns to `-1` after reaching `0`); and on every
accepted move the combo increments exactly when the move cleared at least one
line and is unchanged otherwise — the combo-reset branch is unreachable
because the counter is assigned `3` immediately before the reset condition is
tested. -/
theorem c10_combo_never_decreases :
    (∀ (s : GameState) (ms : List (String × (Int × Int) × List String)),
        s.combo ≤ (applyMoves s ms).combo)
    ∧ ∀ (s : GameState) (n : String) (p : Int × Int) (d : List String)
        (b : Nat) (sc : Int) (L : Nat) (go : Bool),
        (make_move s n p d).1 = MoveOutcome.success b sc L go →
        ((make_move s n p d).2).combo
          = (if 0 < L then s.combo + 1 else s.combo) := by
  constructor
  · intro s ms
    induction ms generalizing s with
    | nil => exact le_refl _
    | cons m rest ih =>
      calc s.combo ≤ ((make_move s m.1 m.2.1 m.2.2).2).combo :=
            make_move_combo_le s m.1 m.2.1 m.2.2
        _ ≤ (applyMoves ((make_move s m.1 m.2.1 m.2.2).2) rest).combo :=
            ih ((make_move s m.1 m.2.1 m.2.2).2)
        _ = (applyMoves s (m :: rest)).combo := rfl
  · intro s n p d b sc L go hsucc
    by_cases hgo : s.game_over
    · rw [show (make_move s n p d).1 = MoveOutcome.error "Game is over." from by
        simp [make_move, hgo]] at hsucc
      cases hsucc
    · by_cases hmem : n ∈ s.current_pieces
      · by_cases hval : is_valid_move s.width s.height s.board n p = true
        · have hres : make_move s n p d = make_move_core s n p d := by
            simp [make_move, hgo, hmem, hval]
          rw [hres] at hsucc ⊢
          obtain ⟨b', sc', go', hout⟩ := make_move_core_outcome s n p d
          rw [hout] at hsucc
          have hL : L = (clearScan s.width s.height
              (s.board ||| get_piece_mask s.width n p)).1 := by
            cases hsucc
            rfl
          rw [make_move_core_combo, hL]
        · rw [show (make_move s n p d).1 = MoveOutcome.error "Invalid move." from by
            simp [make_move, hgo, hmem, hval]] at hsucc
          cases hsucc
      · rw [show (make_move s n p d).1 = MoveOutcome.error "Piece unavailable." from by
          simp [make_move, hgo, hmem]] at hsucc
        cases hsucc

/-- Claim C10 witness: the per-move characterisation and monotonicity applied
to the single clearing move of a fresh 1×1 session. -/
theorem c10_combo_never_decreases_witness :
    stateC10W.combo ≤ (applyMoves stateC10W [("sq1", (0, 0), [])]).combo
    ∧ ((make_move stateC10W "sq1" (0, 0) []).2).combo
        = (if 0 < 2 then stateC10W.combo + 1 else stateC10W.combo) :=
  ⟨c10_combo_never_decreases.1 stateC10W [("sq1", (0, 0), [])],
   c10_combo_never_decreases.2 stateC10W "sq1" (0, 0) [] 0 69 2 true (by decide)⟩

/-- Claim C1 (amended): on every accepted clearing move the reset check is
evaluated against the counter value *after* it is reset to 3, so it never
holds: the counter is left at 3, the combo increments, and the accumulator
gains exactly the updated acceleration (it is never zeroed first). -/
theorem c1_reset_check_postreset :
    ∀ (s : GameState) (n : String) (p : Int × Int) (d : List String)
      (b : Nat) (sc : Int) (L : Nat) (go : Bool),
      (make_move s n p d).1 = MoveOutcome.success b sc L go → 0 < L →
      ((make_move s n p d).2).not_combo_counter = 3
      ∧ ((make_move s n p d).2).combo = s.combo + 1
      ∧ ((make_move s n p d).2).score_increment
          = s.score_increment.add
              ((make_move s n p d).2).score_incremental_acceleration := by
  intro s n p d b sc L go hsucc hL
  by_cases hgo : s.game_over
  · rw [show (make_move s n p d).1 = MoveOutcome.error "Game is over." from by
      simp [make_move, hgo]] at hsucc
    cases hsucc
  · by_cases hmem : n ∈ s.current_pieces
    · by_cases hval : is_valid_move s.width s.height s.board n p = true
      · have hres : make_move s n p d = make_move_core s n p d := by
          simp [make_move, hgo, hmem, hval]
        rw [hres] at hsucc ⊢
        obtain ⟨b', sc', go', hout⟩ := make_move_core_outcome s n p d
        rw [hout] at hsucc
        have hLs : L = (clearScan s.width s.height
            (s.board ||| get_piece_mask s.width n p)).1 := by
          cases hsucc
          rfl
        rw [hLs] at hL
        exact make_move_core_clear_fields s n p d hL
      · rw [show (make_move s n p d).1 = MoveOutcome.error "Invalid move." from by
          simp [make_move, hgo, hmem, hval]] at hsucc
        cases hsucc
    · rw [show (make_move s n p d).1 = MoveOutcome.error "Piece unavailable." from by
        simp [make_move, hgo, hmem]] at hsucc
      cases hsucc

/-- Claim C1 witness: the amended transition on a concrete clearing move from
a fresh 2×2 state (4 lines clear at once, combo `-1` to `0`). -/
theorem c1_reset_check_postreset_witness :
    ((make_move stateC1W "sq1" (0, 0) []).2).not_combo_counter = 3
    ∧ ((make_move stateC1W "sq1" (0, 0) []).2).combo = stateC1W.combo + 1
    ∧ ((make_move stateC1W "sq1" (0, 0) []).2).score_increment
        = stateC1W.score_increment.add
            ((make_move stateC1W "sq1" (0, 0) []).2).score_incremental_acceleration :=
  c1_reset_check_postreset stateC1W "sq1" (0, 0) [] 0 411 4 true (by decide) (by decide)

/-- Claim C1 counterexample: from `stateC1` (counter already 0), placing `sq1`
clears one line; the code increments combo 4 to 5, while the spec's
pre-reset-value reading (`make_moveC1`) would reset and leave combo 0 — the
check is not evaluated against the pre-reset counter. -/
theorem c1_counterexample :
    (make_move stateC1 "sq1" (0, 0) []).1 = MoveOutcome.success 0 172 1 true
    ∧ ((make_move stateC1 "sq1" (0, 0) []).2).combo = 5
    ∧ ((make_moveC1 stateC1 "sq1" (0, 0) []).2).combo = 0
    ∧ stateC1.not_combo_counter + 1 ≤ 1 := by decide

/-- Claim C4 counterexample: from a fresh 8×8 session, the first two
end-to-end `line4h` placements in row 0 succeed — and the second one already
clears the row — while the third end-to-end position `(8, 0)` is rejected as
out of bounds: four `line4h` pieces cannot be placed end-to-end across one
row of an 8-wide board. -/
theorem c4_counterexample :
    (make_move stateC4 "line4h" (0, 0) []).1 = MoveOutcome.success 15 4 0 false
    ∧ (make_move (make_move stateC4 "line4h" (0, 0) []).2 "line4h" (4, 0) []).1
        = MoveOutcome.success 0 42 1 false
    ∧ (make_move (make_move (make_move stateC4 "line4h" (0, 0) []).2
        "line4h" (4, 0) []).2 "line4h" (8, 0) []).1
        = MoveOutcome.error "Invalid move." := by decide

/-- Claim C4 (amended): on an 8×8 board from the fresh scoring state holding
`line4h` pieces, two end-to-end `line4h` placements fill row 0 exactly; the
second placement clears exactly 1 line, the combo moves from -1 to 0, and the
score becomes flat 8 (2 pieces of 4 cells) plus `int(34.2 * 1.0) = 34`,
i.e. 42. -/
theorem c4_two_line4h_fill_row :
    (make_move stateC4 "line4h" (0, 0) []).1 = MoveOutcome.success 15 4 0 false
    ∧ ((make_move stateC4 "line4h" (0, 0) []).2).board
        ||| get_piece_mask 8 "line4h" (4, 0) = (1 <<< 8) - 1
    ∧ (make_move (make_move stateC4 "line4h" (0, 0) []).2 "line4h" (4, 0) []).1
        = MoveOutcome.success 0 42 1 false
    ∧ ((make_move stateC4 "line4h" (0, 0) []).2).combo = -1
    ∧ ((make_move (make_move stateC4 "line4h" (0, 0) []).2 "line4h" (4, 0) []).2).combo = 0
    ∧ (PyFloat.mul ⟨342, 10⟩ (score_multiplier 1)).trunc = 34
    ∧ (42 : Int) = 8 + 34 := by decide

/-- Claim C3 (amended): `try_move` mutates nothing and its `status`, `board`
and `lines_cleared` fields depend only on the supplied board, piece and
position (given the session's fixed geometry); its `game_over` field is
computed from the live session's board and held set, so two sessions
differing only in live state agree on everything except possibly `game_over`.
-/
theorem c3_try_move_core_pure :
    ∀ (s₁ s₂ : GameState) (board : Nat) (n : String) (p : Int × Int),
      s₁.width = s₂.width → s₁.height = s₂.height →
      tryCore (try_move s₁ board n p) = tryCore (try_move s₂ board n p)
      ∧ (∀ b L go, try_move s₁ board n p = TryOutcome.success b L go →
          go = decide (get_possible_moves s₁.width s₁.height s₁.board
            s₁.current_pieces = [])) := by
  intro s₁ s₂ board n p hW hH
  constructor
  · unfold try_move
    rw [hW, hH]
    by_cases hv : is_valid_move s₂.width s₂.height board n p = true
    · simp [hv, tryCore]
    · simp [hv, tryCore]
  · intro b L go hsucc
    unfold try_move at hsucc
    split at hsucc
    · cases hsucc
    · injection hsucc with h1 h2 h3
      subst h3
      by_cases hemp : get_possible_moves s₁.width s₁.height s₁.board
          s₁.current_pieces = []
      · simp [hemp]
      · simp [hemp]

/-- Claim C3 witness: the agreement of the non-`game_over` fields on two
sessions differing only in live board, and the `game_over` characterisation
on the full-board session. -/
theorem c3_try_move_core_pure_witness :
    tryCore (try_move stateC3A 0 "sq1" (0, 0))
      = tryCore (try_move stateC3B 0 "sq1" (0, 0))
    ∧ (true : Bool) = decide (get_possible_moves stateC3B.width stateC3B.height
        stateC3B.board stateC3B.current_pieces = []) :=
  ⟨(c3_try_move_core_pure stateC3A stateC3B 0 "sq1" (0, 0) rfl rfl).1,
   (c3_try_move_core_pure stateC3B stateC3B 0 "sq1" (0, 0) rfl rfl).2 1 0 true
     (by decide)⟩

/-- Claim C3 counterexample: two sessions with identical geometry and held
set, differing only in live session state (the live board), return different
outcomes — different `game_over` fields — from `try_move` on the same
supplied board, piece and position. So the outcome is not determined solely
by the supplied arguments. -/
theorem c3_counterexample :
    stateC3A.width = stateC3B.width
    ∧ stateC3A.height = stateC3B.height
    ∧ stateC3A.current_pieces = stateC3B.current_pieces
    ∧ try_move stateC3A 0 "sq1" (0, 0) ≠ try_move stateC3B 0 "sq1" (0, 0) := by decide

/-- A placement record yields sequential placeability. -/
theorem ordered_of_reaches {w h : Nat} :
    ∀ {b0 : Nat} {acc : List String} {b : Nat},
      Reaches w h b0 acc b → OrderedPlaceable w h b0 acc := by
  intro b0 acc b hr
  induction hr with
  | nil board => exact OrderedPlaceable.nil board
  | cons board board' name pos rest hv _ ih =>
    exact OrderedPlaceable.cons board name pos rest hv ih

/-- Extending a placement record with one more legal placement at its end. -/
theorem reaches_snoc {w h : Nat} :
    ∀ {b0 : Nat} {acc : List String} {b : Nat} {name : String} {pos : Int × Int},
      Reaches w h b0 acc b → is_valid_move w h b name pos = true →
      Reaches w h b0 (acc ++ [name]) (placeAndClear w h b name pos) := by
  intro b0 acc b name pos hr hv
  induction hr with
  | nil board =>
    exact Reaches.cons board _ name pos [] hv (Reaches.nil _)
  | cons board board' nm ps rest hv' _ ih =>
    exact Reaches.cons board _ nm ps (rest ++ [name]) hv' (ih hv)

/-- Specification of one pass of the guaranteed deal: the collected names
stay sequentially placeable from the original board, the scratch board keeps
an empty cell, the collection never exceeds 3, never shrinks, and grows
whenever `sq1` is still to be scanned. -/
theorem guaranteed_deal_pass_spec {w h : Nat} (hw : 0 < w) (hh : 0 < h) (b0 : Nat) :
    ∀ (names : List String) (board : Nat) (acc : List String),
      Reaches w h b0 acc board → NonFull w h board → acc.length < 3 →
      Reaches w h b0 (guaranteed_deal_pass w h names board acc).2
          (guaranteed_deal_pass w h names board acc).1
      ∧ NonFull w h (guaranteed_deal_pass w h names board acc).1
      ∧ acc.length ≤ (guaranteed_deal_pass w h names board acc).2.length
      ∧ (guaranteed_deal_pass w h names board acc).2.length ≤ 3
      ∧ ("sq1" ∈ names →
          acc.length < (guaranteed_deal_pass w h names board acc).2.length) := by
  intro names
  induction names with
  | nil =>
    intro board acc hr hnf hlen
    simp only [guaranteed_deal_pass]
    refine ⟨hr, hnf, le_refl _, by omega, ?_⟩
    intro hmem
    cases hmem
  | cons name rest ih =>
    intro board acc hr hnf hlen
    cases hc : can_place_piece w h board name with
    | some pos =>
      have hv := can_place_piece_valid hc
      have hr1 : Reaches w h b0 (acc ++ [name]) (placeAndClear w h board name pos) :=
        reaches_snoc hr hv
      have hnf1 : NonFull w h (placeAndClear w h board name pos) :=
        placeAndClear_nonFull hw hh board name pos
      by_cases h3 : (acc ++ [name]).length = 3
      · have hres : guaranteed_deal_pass w h (name :: rest) board acc
            = (placeAndClear w h board name pos, acc ++ [name]) := by
          simp only [guaranteed_deal_pass, hc, h3, if_pos]
        rw [hres]
        refine ⟨hr1, hnf1, by simp, by simp [h3], ?_⟩
        intro _
        simp
      · have hres : guaranteed_deal_pass w h (name :: rest) board acc
            = guaranteed_deal_pass w h rest (placeAndClear w h board name pos)
                (acc ++ [name]) := by
          simp only [guaranteed_deal_pass, hc, h3, if_neg, if_false]
        rw [hres]
        have hlen1 : (acc ++ [name]).length < 3 := by
          have : (acc ++ [name]).length = acc.length + 1 := by simp
          omega
        obtain ⟨ha, hb, hc', hd, _⟩ := ih _ _ hr1 hnf1 hlen1
        refine ⟨ha, hb, ?_, hd, ?_⟩
        · have : acc.length < (acc ++ [name]).length := by simp
          omega
        · intro _
          have : acc.length < (acc ++ [name]).length := by simp
          omega
    | none =>
      have hres : guaranteed_deal_pass w h (name :: rest) board acc
          = guaranteed_deal_pass w h rest board acc := by
        simp only [guaranteed_deal_pass, hc]
      rw [hres]
      obtain ⟨ha, hb, hc', hd, he⟩ := ih _ _ hr hnf hlen
      refine ⟨ha, hb, hc', hd, ?_⟩
      intro hmem
      have hname : name ≠ "sq1" := by
        intro heq
        subst heq
        obtain ⟨x, y, hx, hy, hvx⟩ := sq1_valid_of_nonFull hw hh hnf
        obtain ⟨pos, hpos⟩ := can_place_piece_isSome hx hy hvx
        rw [hc] at hpos
        cases hpos
      have hmem' : "sq1" ∈ rest := by
        rcases List.mem_cons.mp hmem with heq | hm
        · exact absurd heq.symm hname
        · exact hm
      exact he hmem'

/-- Every catalogue piece's bottom interior row has at least one cell. -/
theorem catalog_compact_low_ne_zero :
    ∀ n ∈ all_piece_names,
      pieceCompact n &&& ((1 <<< (pieceSize n).1) - 1) ≠ 0 := by decide

/-- The scaled mask of a catalogue piece is nonzero at any stride. -/
theorem scaledMask_ne_zero (w : Nat) (n : String) (hn : n ∈ all_piece_names) :
    scaledMask w n ≠ 0 := by
  have hph : 1 ≤ (pieceSize n).2 := (catalog_sizes_pos n hn).2
  have hlow := catalog_compact_low_ne_zero n hn
  intro h0
  have hmem : ((pieceCompact n >>> (0 * (pieceSize n).1)) &&&
        ((1 <<< (pieceSize n).1) - 1)) <<< (0 * w)
      ∈ (List.range (pieceSize n).2).map
          (fun r => ((pieceCompact n >>> (r * (pieceSize n).1)) &&&
            ((1 <<< (pieceSize n).1) - 1)) <<< (r * w)) :=
    List.mem_map.mpr ⟨0, List.mem_range.mpr (by omega), rfl⟩
  have hsub := mem_subset_orFold 0 hmem
  have hfold : scaledMask w n
      = List.foldl (fun a c => a ||| c) 0
          ((List.range (pieceSize n).2).map
            (fun r => ((pieceCompact n >>> (r * (pieceSize n).1)) &&&
              ((1 <<< (pieceSize n).1) - 1)) <<< (r * w))) := by
    unfold scaledMask
    rw [List.foldl_map]
  rw [← hfold, h0, Nat.and_zero] at hsub
  rw [Nat.zero_mul, Nat.zero_mul, Nat.shiftRight_zero, Nat.shiftLeft_zero] at hsub
  exact hlow hsub.symm

/-- The placement mask of a catalogue piece is nonzero. -/
theorem get_piece_mask_ne_zero (w : Nat) (n : String) (pos : Int × Int)
    (hn : n ∈ all_piece_names) : get_piece_mask w n pos ≠ 0 := by
  unfold get_piece_mask
  rw [Nat.shiftLeft_eq_mul_pow]
  exact Nat.mul_ne_zero (scaledMask_ne_zero w n hn) (Nat.two_pow_pos _).ne'

/-- A board admitting a legal catalogue placement misses an extent cell. -/
theorem nonFull_of_valid {w h board : Nat} {n : String} {pos : Int × Int}
    (hn : n ∈ all_piece_names) (hv : is_valid_move w h board n pos = true) :
    NonFull w h board := by
  obtain ⟨_, _, _, _, hdisj⟩ := valid_move_elim hv
  have hne := get_piece_mask_ne_zero w n pos hn
  have hmask_lt := get_piece_mask_lt hv
  obtain ⟨i, hbit, _⟩ := Nat.exists_most_significant_bit hne
  have hi : i < w * h := by
    by_contra hge
    push_neg at hge
    have hfalse : (get_piece_mask w n pos).testBit i = false :=
      Nat.testBit_lt_two_pow
        (lt_of_lt_of_le hmask_lt (Nat.pow_le_pow_right (by norm_num) hge))
    rw [hfalse] at hbit
    cases hbit
  refine ⟨i, hi, ?_⟩
  have hb := congrArg (fun a => a.testBit i) hdisj
  simp only [Nat.testBit_land, Nat.zero_testBit] at hb
  rw [hbit] at hb
  simpa using hb

/-- A board admitting a legal catalogue placement has positive dimensions. -/
theorem pos_dims_of_valid {w h board : Nat} {n : String} {pos : Int × Int}
    (hn : n ∈ all_piece_names) (hv : is_valid_move w h board n pos = true) :
    0 < w ∧ 0 < h := by
  obtain ⟨hx0, hy0, hxw, hyh, _⟩ := valid_move_elim hv
  obtain ⟨hpw, hph⟩ := catalog_sizes_pos n hn
  constructor <;> omega

/-- Claim C2 (amended): for every board state on which at least one catalogue
piece has a legal placement, the guaranteed deal terminates within 3 passes of
the shuffled catalogue and collects exactly 3 piece names that are
sequentially placeable — each at some legal position, with line clears
applied — in the order they were collected. (The final `random.shuffle` hands
out a permutation of these; `c2_counterexample` shows the *returned* order
itself need not admit such a sequence.) -/
theorem c2_guaranteed_deal_collects :
    ∀ (w h board : Nat) (names : List String),
      names.Perm all_piece_names →
      (∃ n ∈ all_piece_names, ∃ pos : Int × Int,
          is_valid_move w h board n pos = true) →
      ∃ acc, guaranteed_deal_loop w h names 3 board [] = some acc
        ∧ acc.length = 3 ∧ OrderedPlaceable w h board acc := by
  intro w h board names hperm hplace
  obtain ⟨n, hn, pos, hv⟩ := hplace
  obtain ⟨hw, hh⟩ := pos_dims_of_valid hn hv
  have hnf : NonFull w h board := nonFull_of_valid hn hv
  have hsq1 : "sq1" ∈ names := hperm.mem_iff.mpr sq1_mem_catalog
  obtain ⟨r1a, r1b, _, r1d, r1e⟩ :=
    guaranteed_deal_pass_spec hw hh board names board [] (Reaches.nil board)
      hnf (by norm_num)
  have h1pos : 1 ≤ (guaranteed_deal_pass w h names board []).2.length := by
    have := r1e hsq1
    simpa using this
  by_cases h13 : (guaranteed_deal_pass w h names board []).2.length = 3
  · refine ⟨(guaranteed_deal_pass w h names board []).2, ?_, h13,
      ordered_of_reaches r1a⟩
    simp only [guaranteed_deal_loop]
    rw [if_pos h13]
  · obtain ⟨r2a, r2b, _, r2d, r2e⟩ :=
      guaranteed_deal_pass_spec hw hh board names
        (guaranteed_deal_pass w h names board []).1
        (guaranteed_deal_pass w h names board []).2 r1a r1b (by omega)
    have h2pos := r2e hsq1
    by_cases h23 : (guaranteed_deal_pass w h names
        (guaranteed_deal_pass w h names board []).1
        (guaranteed_deal_pass w h names board []).2).2.length = 3
    · refine ⟨_, ?_, h23, ordered_of_reaches r2a⟩
      simp only [guaranteed_deal_loop]
      rw [if_neg h13, if_pos h23]
    · obtain ⟨r3a, _, _, r3d, r3e⟩ :=
        guaranteed_deal_pass_spec hw hh board names _ _ r2a r2b (by omega)
      have h3pos := r3e hsq1
      have h33 : (guaranteed_deal_pass w h names
          (guaranteed_deal_pass w h names
            (guaranteed_deal_pass w h names board []).1
            (guaranteed_deal_pass w h names board []).2).1
          (guaranteed_deal_pass w h names
            (guaranteed_deal_pass w h names board []).1
            (guaranteed_deal_pass w h names board []).2).2).2.length = 3 := by
        omega
      refine ⟨_, ?_, h33, ordered_of_reaches r3a⟩
      simp only [guaranteed_deal_loop]
      rw [if_neg h13, if_neg h23, if_pos h33]

/-- Sequential placeability implies the bounded boolean search succeeds
(catalogue-sized pieces force legal positions into the row-major grid). -/
theorem orderedPlaceable_toB {w h : Nat} :
    ∀ {board : Nat} {l : List String},
      OrderedPlaceable w h board l →
      (∀ n ∈ l, 1 ≤ (pieceSize n).1 ∧ 1 ≤ (pieceSize n).2) →
      orderedPlaceableB w h board l = true := by
  intro board l hop
  induction hop with
  | nil board => intro _; rfl
  | cons b name pos rest hv hrest ih =>
    intro hcat
    obtain ⟨hx0, hy0, hxw, hyh, _⟩ := valid_move_elim hv
    obtain ⟨hpw, hph⟩ := hcat name (by simp)
    have hxlt : pos.1.toNat < w := by omega
    have hylt : pos.2.toNat < h := by omega
    have hposeq : ((pos.1.toNat : Int), (pos.2.toNat : Int)) = pos := by
      rw [Int.toNat_of_nonneg hx0, Int.toNat_of_nonneg hy0]
    rw [orderedPlaceableB]
    rw [List.any_eq_true]
    refine ⟨pos.2.toNat, List.mem_range.mpr hylt, ?_⟩
    rw [List.any_eq_true]
    refine ⟨pos.1.toNat, List.mem_range.mpr hxlt, ?_⟩
    rw [Bool.and_eq_true]
    constructor
    · rw [hposeq]
      exact hv
    · rw [hposeq]
      exact ih (fun q hq => hcat q (by simp [hq]))

/-- Claim C2 witness: the amended claim applied to an empty 1×1 board with
the identity shuffle: three passes collect three placeable `sq1`s. -/
theorem c2_guaranteed_deal_collects_witness :
    ∃ acc, guaranteed_deal_loop 1 1 all_piece_names 3 0 [] = some acc
      ∧ acc.length = 3 ∧ OrderedPlaceable 1 1 0 acc :=
  c2_guaranteed_deal_collects 1 1 0 all_piece_names (List.Perm.refl _)
    ⟨"sq1", sq1_mem_catalog, (0, 0), by decide⟩

/-- Claim C2 counterexample: on a 3×2 board with only cell (0,0) occupied —
a state on which catalogue pieces are legally placeable — the shuffled
catalogue order `c2CatalogOrder` makes the deal collect `[t3, diag2, sq1]`,
and the final shuffle can return the permutation `[diag2, t3, sq1]`; but no
choice of legal positions places that returned order sequentially (placing
`diag2` anywhere leaves `t3` with no legal position), refuting the claim's
"in the returned order" property. -/
theorem c2_counterexample :
    c2CatalogOrder.Perm all_piece_names
    ∧ is_valid_move 3 2 1 "sq1" (2, 1) = true
    ∧ guaranteed_deal_loop 3 2 c2CatalogOrder 3 1 [] = some ["t3", "diag2", "sq1"]
    ∧ (["diag2", "t3", "sq1"] : List String).Perm ["t3", "diag2", "sq1"]
    ∧ ¬ OrderedPlaceable 3 2 1 ["diag2", "t3", "sq1"] := by
  refine ⟨by decide, by decide, by decide, by decide, ?_⟩
  intro hop
  have hB := orderedPlaceable_toB hop (by decide)
  rw [show orderedPlaceableB 3 2 1 ["diag2", "t3", "sq1"] = false from by decide] at hB
  cases hB

/-- Soundness of the Solver's search: any sequence it returns places every
held piece exactly once, each move legal on the board as it stands, with the
post-clear board passed on. (Fuel is the number of held pieces, as in
`get_solution`.) -/
theorem solveFuel_sound {w h : Nat} :
    ∀ (fuel board : Nat) (pieces : List String) (seq : List (String × Int × Int)),
      fuel = pieces.length →
      solveFuel w h fuel board pieces = some seq →
      LegalSeq w h board pieces seq := by
  intro fuel
  induction fuel with
  | zero =>
    intro board pieces seq hf hs
    have hp : pieces = [] := List.length_eq_zero.mp hf.symm
    subst hp
    simp only [solveFuel, if_pos] at hs
    have : ([] : List (String × Int × Int)) = seq := by
      injection hs
    subst this
    exact LegalSeq.nil board
  | succ fuel ih =>
    intro board pieces seq hf hs
    rw [solveFuel] at hs
    have hp : ¬ pieces = [] := by
      intro hp
      subst hp
      simp at hf
    rw [if_neg hp] at hs
    obtain ⟨i, hi_mem, hs2⟩ := List.exists_of_findSome?_eq_some hs
    obtain ⟨y, hy_mem, hs3⟩ := List.exists_of_findSome?_eq_some hs2
    obtain ⟨x, hx_mem, hs4⟩ := List.exists_of_findSome?_eq_some hs3
    dsimp only at hs4
    by_cases hv : is_valid_move w h board (pieces.getD i "")
        ((x : Int), (y : Int)) = true
    · rw [if_pos hv] at hs4
      cases hrec : solveFuel w h fuel
          (placeAndClear w h board (pieces.getD i "") ((x : Int), (y : Int)))
          (pieces.eraseIdx i) with
      | none =>
        rw [hrec] at hs4
        cases hs4
      | some seq' =>
        rw [hrec] at hs4
        have hseq : (pieces.getD i "", (x : Int), (y : Int)) :: seq' = seq := by
          injection hs4
        subst hseq
        have hi : i < pieces.length := List.mem_range.mp hi_mem
        have hgetD : pieces.getD i "" = pieces.get ⟨i, hi⟩ := by
          rw [List.getD_eq_getElem?_getD, List.getElem?_eq_getElem hi]
          rfl
        have hlen : fuel = (pieces.eraseIdx i).length := by
          rw [List.length_eraseIdx, if_pos hi]
          omega
        rw [hgetD] at hv hrec ⊢
        have hrec' := ih _ _ _ hlen hrec
        exact LegalSeq.cons board pieces i (x : Int) (y : Int) seq' hi hv hrec'
    · rw [if_neg hv] at hs4
      cases hs4

/-- Completeness of the Solver's search: whenever a legal full-placement
sequence exists, the search does not return "no solution". -/
theorem solveFuel_complete {w h : Nat} :
    ∀ {board : Nat} {pieces : List String} {seq : List (String × Int × Int)},
      LegalSeq w h board pieces seq →
      (∀ n ∈ pieces, 1 ≤ (pieceSize n).1 ∧ 1 ≤ (pieceSize n).2) →
      solveFuel w h pieces.length board pieces ≠ none := by
  intro board pieces seq hls
  induction hls with
  | nil board =>
    intro _ hnone
    simp [solveFuel] at hnone
  | cons board pieces i x y seq hi hv hrest ih =>
    intro hcat hnone
    obtain ⟨k, hk⟩ : ∃ k, pieces.length = k + 1 := ⟨pieces.length - 1, by omega⟩
    rw [hk, solveFuel] at hnone
    have hne : ¬ pieces = [] := by
      intro hp
      subst hp
      simp at hi
    rw [if_neg hne] at hnone
    rw [List.findSome?_eq_none_iff] at hnone
    have h1 := hnone i (List.mem_range.mpr (by omega))
    rw [List.findSome?_eq_none_iff] at h1
    obtain ⟨hx0, hy0, hxw, hyh, _⟩ := valid_move_elim hv
    obtain ⟨hpw, hph⟩ := hcat (pieces.get ⟨i, hi⟩) (List.get_mem pieces i hi)
    have hylt : y.toNat < h := by omega
    have hxlt : x.toNat < w := by omega
    have h2 := h1 y.toNat (List.mem_range.mpr hylt)
    rw [List.findSome?_eq_none_iff] at h2
    have h3 := h2 x.toNat (List.mem_range.mpr hxlt)
    have hgetD : pieces.getD i "" = pieces.get ⟨i, hi⟩ := by
      rw [List.getD_eq_getElem?_getD, List.getElem?_eq_getElem hi]
      rfl
    have hposeq : (((x.toNat : Nat) : Int), ((y.toNat : Nat) : Int)) = (x, y) := by
      rw [Int.toNat_of_nonneg hx0, Int.toNat_of_nonneg hy0]
    rw [hgetD, hposeq, if_pos hv] at h3
    have hlen2 : (pieces.eraseIdx i).length = k := by
      rw [List.length_eraseIdx, if_pos hi]
      omega
    have hrec := ih (fun q hq => hcat q (List.mem_of_mem_eraseIdx hq))
    rw [hlen2] at hrec
    cases hsome : solveFuel w h k
        (placeAndClear w h board (pieces.get ⟨i, hi⟩) (x, y))
        (pieces.eraseIdx i) with
    | none => exact hrec hsome
    | some s =>
      rw [hsome] at h3
      cases h3

/-- Claim C9: the Solver's fixed-order depth-first search is sound — every
returned sequence places all held pieces, each move legal at the point it is
made — and returns "no solution" exactly when no ordering and positioning
places all held pieces. (Held names are catalogue names, as in any reachable
session.) -/
theorem c9_solver_correct :
    ∀ (s : GameState),
      (∀ n ∈ s.current_pieces, 1 ≤ (pieceSize n).1 ∧ 1 ≤ (pieceSize n).2) →
      (∀ seq, get_solution s = some seq →
          LegalSeq s.width s.height s.board s.current_pieces seq)
      ∧ (get_solution s = none
          ↔ ¬ ∃ seq, LegalSeq s.width s.height s.board s.current_pieces seq) := by
  intro s hcat
  constructor
  · intro seq hs
    exact solveFuel_sound _ _ _ _ rfl hs
  · constructor
    · intro hnone hex
      obtain ⟨seq, hls⟩ := hex
      exact solveFuel_complete hls hcat hnone
    · intro hnex
      cases hs : get_solution s with
      | none => rfl
      | some seq =>
        exact absurd ⟨seq, solveFuel_sound _ _ _ _ rfl hs⟩ hnex

/-- Claim C9 witness: on a fresh 1×1 session holding `sq1`, the solver's
returned sequence is legal. -/
theorem c9_solver_correct_witness :
    LegalSeq 1 1 0 ["sq1"] [("sq1", 0, 0)] :=
  (c9_solver_correct (freshState 1 1 ["sq1"]) (by decide)).1
    [("sq1", 0, 0)] (by decide)
